import Mathlib

set_option maxHeartbeats 1600000

/-!
Verification development for the scope/binding resolution engine described in
`spec.md` and for the `prefer-string-starts-ends-with` lint rule.

Part 1 (`ScopeEngine`): the engine itself (scope tree builder, definition
recorder, reference collector, resolver) is not part of the shown source
files, so it is modelled from the specification text, section by section.

Part 2 (`RuleModel`): a shallow embedding of the decision logic of
`packages/eslint-plugin/src/rules/prefer-string-starts-ends-with.ts`,
translated from the source.
-/

namespace ScopeEngine

/-- Modelled from the spec: scope kinds (section 3, ScopeNode.Kind).  The spec
lists many kinds; the ones with distinct hoisting behaviour relevant to the
claims are `global`/`module` (hoisting target, root), `function` (hoisting
target) and `block` (not a hoisting target).  `module` behaves like `global`
for every claim considered here and is folded into `global`. -/
inductive ScopeKind
  | global
  | function
  | block
deriving DecidableEq, Repr

/-- Modelled from the spec: Definition kinds (section 3).  Only the two
placement behaviours matter: function-scoped (`var`) and block-scoped
(`let`/`const`/`class`). -/
inductive DefKind
  | varDef
  | letOrConst
deriving DecidableEq, Repr

/-- Modelled from the spec: a Definition record (section 3).  `declScope` is
the identity of the scope immediately enclosing the declaring syntax node
(standing in for the opaque `DeclaringNode` handle: it is the only attribute
of the declaring node the hoisting rules of section 4.2 consult). -/
structure Defn where
  kind : DefKind
  name : String
  declScope : Nat
deriving DecidableEq, Repr

/-- Modelled from the spec: a Binding record (section 3): name, back-reference
to the owning scope, ordered Definitions, ordered resolved References. -/
structure BindingRec where
  name : String
  owningScope : Nat
  defs : List Defn
  refs : List Nat
deriving DecidableEq, Repr

/-- Modelled from the spec: a Reference record (section 3): identifier name,
the scope the use lexically occurs in, and `ResolvedBinding` (absent until
resolution completes). -/
structure RefRec where
  name : String
  fromScope : Nat
  resolved : Option Nat
deriving DecidableEq, Repr

/-- Modelled from the spec: a ScopeNode (section 3): kind, parent link,
ordered children, the bindings it owns, the references lexically in it, and
the transient `ThroughReferences` work list (cleared after resolution
propagates upward). -/
structure ScopeNode where
  kind : ScopeKind
  parent : Option Nat
  children : List Nat
  bindings : List Nat
  refs : List Nat
  through : List Nat
deriving DecidableEq, Repr

/-- Modelled from the spec: the Scope Manager's store (section 4.5, and the
arena representation suggested in section 9): all ScopeNodes, Bindings and
References live in central arenas addressed by index, plus the list of
references recorded as unresolved/global. -/
structure St where
  scopes : List ScopeNode
  bindings : List BindingRec
  refs : List RefRec
  unresolved : List Nat
deriving DecidableEq, Repr

def defaultScope : ScopeNode := ⟨.global, none, [], [], [], []⟩

def defaultBinding : BindingRec := ⟨"", 0, [], []⟩

def defaultRef : RefRec := ⟨"", 0, none⟩

def St.scopeOf (st : St) (sid : Nat) : ScopeNode := st.scopes.getD sid defaultScope

def St.bindOf (st : St) (bid : Nat) : BindingRec := st.bindings.getD bid defaultBinding

def St.refOf (st : St) (rid : Nat) : RefRec := st.refs.getD rid defaultRef

/-- Modelled from the spec: lookup of a Binding by name in one scope's own
name index (section 3, ScopeNode.Bindings). -/
def St.findBinding (st : St) (sid : Nat) (n : String) : Option Nat :=
  (st.scopeOf sid).bindings.find? (fun bid => (st.bindOf bid).name == n)

def setScope (st : St) (sid : Nat) (sc : ScopeNode) : St :=
  { st with scopes := st.scopes.set sid sc }

def setBind (st : St) (bid : Nat) (b : BindingRec) : St :=
  { st with bindings := st.bindings.set bid b }

def setRef (st : St) (rid : Nat) (r : RefRec) : St :=
  { st with refs := st.refs.set rid r }

/-- Modelled from the spec: the Scope Tree Builder pushes exactly one
ScopeNode per scope-introducing construct, linked to its lexical parent
(section 4.1), and records it as the parent's next child in source order. -/
def pushScope (st : St) (parent : Option Nat) (k : ScopeKind) : St × Nat :=
  let sid := st.scopes.length
  let st1 : St := { st with scopes := st.scopes ++ [⟨k, parent, [], [], [], []⟩] }
  match parent with
  | some p =>
      (setScope st1 p { st1.scopeOf p with children := (st1.scopeOf p).children ++ [sid] }, sid)
  | none => (st1, sid)

/-- Modelled from the spec: the hoisting target of a function-scoped
declaration is the nearest enclosing scope of kind function/module/global
(section 4.2), found by walking the stack of currently open scopes. -/
def hoistTarget (st : St) : List Nat → Nat
  | [] => 0
  | sid :: rest =>
      match (st.scopeOf sid).kind with
      | .block => hoistTarget st rest
      | _ => sid

def curScope : List Nat → Nat
  | [] => 0
  | sid :: _ => sid

/-- Modelled from the spec: the Definition Recorder (section 4.2).  A `var`
binds in the nearest enclosing function/module/global scope, a `let`/`const`
in the immediately enclosing scope; a second declaration of a name already
bound in the owning scope appends a Definition to the existing Binding
instead of creating a new one. -/
def recordDeclAt (st : St) (target : Nat) (d : Defn) : St :=
  match st.findBinding target d.name with
  | some bid => setBind st bid { st.bindOf bid with defs := (st.bindOf bid).defs ++ [d] }
  | none =>
      let bid := st.bindings.length
      let st1 : St := { st with bindings := st.bindings ++ [⟨d.name, target, [d], []⟩] }
      setScope st1 target
        { st1.scopeOf target with bindings := (st1.scopeOf target).bindings ++ [bid] }

def recordDecl (st : St) (stack : List Nat) (k : DefKind) (n : String) : St :=
  let target : Nat :=
    match k with
    | .varDef => hoistTarget st stack
    | .letOrConst => curScope stack
  recordDeclAt st target ⟨k, n, curScope stack⟩

/-- Modelled from the spec: the Reference Collector (section 4.3) records a
Reference in the scope currently open at the use's lexical position;
reference ids are handed out in encounter order.  The new reference also
enters the open scope's ThroughReferences work list for the resolver. -/
def addRef (st : St) (stack : List Nat) (n : String) : St :=
  let sid := curScope stack
  let rid := st.refs.length
  let st1 : St := { st with refs := st.refs ++ [⟨n, sid, none⟩] }
  setScope st1 sid
    { st1.scopeOf sid with
      refs := (st1.scopeOf sid).refs ++ [rid]
      through := (st1.scopeOf sid).through ++ [rid] }

/-- Modelled from the spec: the resolver loop at scope close (section 4.4).
Each pending reference is matched against the closing scope's own bindings:
on match `ResolvedBinding` is set and the reference is appended to the
Binding's reference list; on no match it propagates to the parent's
ThroughReferences, or is recorded as unresolved when the closing scope is
the root. -/
def closeLoop (st : St) (sid : Nat) : List Nat → St
  | [] => st
  | rid :: rest =>
      let st2 : St :=
        match st.findBinding sid (st.refOf rid).name with
        | some bid =>
            let stA := setRef st rid { st.refOf rid with resolved := some bid }
            setBind stA bid { stA.bindOf bid with refs := (stA.bindOf bid).refs ++ [rid] }
        | none =>
            match (st.scopeOf sid).parent with
            | some p =>
                setScope st p { st.scopeOf p with through := (st.scopeOf p).through ++ [rid] }
            | none => { st with unresolved := st.unresolved ++ [rid] }
      closeLoop st2 sid rest

/-- Modelled from the spec: closing a scope (section 4.4) resolves every
reference pending at that scope and clears its ThroughReferences list. -/
def close (st : St) (sid : Nat) : St :=
  let pend := (st.scopeOf sid).through
  closeLoop (setScope st sid { st.scopeOf sid with through := [] }) sid pend

/-- Modelled from the spec: the statement forms the claims exercise — `var x`,
`let x`, a bare use of `x`, a block statement, and a function body (the
scope-introducing constructs of section 4.1 that the claims C1-C7 need). -/
inductive Stmt
  | varDecl (n : String)
  | letDecl (n : String)
  | use (n : String)
  | block (body : List Stmt)
  | func (body : List Stmt)

/-- Modelled from the spec: the single forward tree walk (sections 4.1-4.4),
interleaving building, recording, collecting, and close-triggered
resolution. -/
def walkStmts (st : St) (stack : List Nat) : List Stmt → St
  | [] => st
  | .varDecl n :: rest => walkStmts (recordDecl st stack .varDef n) stack rest
  | .letDecl n :: rest => walkStmts (recordDecl st stack .letOrConst n) stack rest
  | .use n :: rest => walkStmts (addRef st stack n) stack rest
  | .block body :: rest =>
      let p := pushScope st (some (curScope stack)) .block
      walkStmts (close (walkStmts p.1 (p.2 :: stack) body) p.2) stack rest
  | .func body :: rest =>
      let p := pushScope st (some (curScope stack)) .function
      walkStmts (close (walkStmts p.1 (p.2 :: stack) body) p.2) stack rest
termination_by l => sizeOf l

def emptySt : St := ⟨[], [], [], []⟩

/-- Modelled from the spec: one full analysis pass over one syntax tree
(section 2's data flow): create the root/global scope, walk the program, and
close the root, after which survivors are recorded as unresolved/global. -/
def analyze (prog : List Stmt) : St :=
  let p := pushScope emptySt none .global
  close (walkStmts p.1 [p.2] prog) p.2

/-- Modelled from the spec: post-hoc nearest-match lookup (section 4.5),
walking outward from a scope through the parent links; the fuel argument is
always sufficient because parent ids strictly decrease. -/
def lookupNearestAux (st : St) (n : String) : Nat → Nat → Option Nat
  | 0, sid => st.findBinding sid n
  | fuel + 1, sid =>
      match st.findBinding sid n with
      | some bid => some bid
      | none =>
          match (st.scopeOf sid).parent with
          | some p => lookupNearestAux st n fuel p
          | none => none

def lookupNearest (st : St) (sid : Nat) (n : String) : Option Nat :=
  lookupNearestAux st n (sid + 1) sid

/-- Modelled from the spec: the nearest enclosing scope of kind
function/module/global (section 4.2), computed over the finished tree. -/
def nearestFGAux (st : St) : Nat → Nat → Nat
  | 0, sid => sid
  | fuel + 1, sid =>
      match (st.scopeOf sid).kind with
      | .block =>
          match (st.scopeOf sid).parent with
          | some p => nearestFGAux st fuel p
          | none => sid
      | _ => sid

def nearestFGFrom (st : St) (sid : Nat) : Nat :=
  nearestFGAux st (sid + 1) sid

/-- Total number of occurrences of a reference id across every scope's
ThroughReferences work list. -/
def throughCount (st : St) (rid : Nat) : Nat :=
  (st.scopes.map (fun sc => sc.through.count rid)).sum

/-- Upward path from scope `f` to scope `sid` along parent links such that
every scope strictly before `sid` on the path is already closed (not on the
open-scope stack) and lacks a binding named `n`: exactly the scopes a
propagating through-reference has already been checked against. -/
inductive PathMiss (st : St) (stack : List Nat) (n : String) : Nat → Nat → Prop
  | refl (sid : Nat) : PathMiss st stack n sid sid
  | step (f p sid : Nat) (hnotin : f ∉ stack) (hmiss : st.findBinding f n = none)
      (hpar : (st.scopeOf f).parent = some p) (htail : PathMiss st stack n p sid) :
      PathMiss st stack n f sid

/-- Every scope on the whole parent chain from `f` to the root lacks a
binding named `n`: the terminal state of an unresolved/global reference. -/
inductive ChainMiss (st : St) (n : String) : Nat → Prop
  | root (f : Nat) (hmiss : st.findBinding f n = none)
      (hpar : (st.scopeOf f).parent = none) : ChainMiss st n f
  | step (f p : Nat) (hmiss : st.findBinding f n = none)
      (hpar : (st.scopeOf f).parent = some p) (htail : ChainMiss st n p) : ChainMiss st n f

/-- Shape of the open-scope stack: consecutive entries are linked by parent
pointers and the last entry is the parentless root. -/
def StackChain (st : St) : List Nat → Prop
  | [] => True
  | s :: rest =>
      s < st.scopes.length ∧ (st.scopeOf s).parent = rest.head? ∧ StackChain st rest

/-- Stratification of pending reference ids along the open-scope stack:
every id pending at an outer scope is smaller than every id pending at a
deeper scope (references are numbered in encounter order). -/
def Strat (st : St) : List Nat → Prop
  | [] => True
  | s :: rest =>
      (∀ p ∈ rest, ∀ x ∈ (st.scopeOf p).through, ∀ y ∈ (st.scopeOf s).through, x < y) ∧
      Strat st rest

/-- Invariant of the analysis state at any point of the forward walk, relative
to the stack of currently open scopes (innermost first). -/
structure Inv (st : St) (stack : List Nat) : Prop where
  scopesNe : st.scopes ≠ []
  rootGlobal : (st.scopeOf 0).kind = .global
  parentLt : ∀ sid, sid < st.scopes.length → ∀ p, (st.scopeOf sid).parent = some p → p < sid
  parentRoot : ∀ sid, sid < st.scopes.length → ((st.scopeOf sid).parent = none ↔ sid = 0)
  scopeBinds : ∀ sid, sid < st.scopes.length → ∀ bid ∈ (st.scopeOf sid).bindings,
      bid < st.bindings.length ∧ (st.bindOf bid).owningScope = sid
  bindOwner : ∀ bid, bid < st.bindings.length →
      (st.bindOf bid).owningScope < st.scopes.length ∧
      bid ∈ (st.scopeOf (st.bindOf bid).owningScope).bindings
  refFrom : ∀ rid, rid < st.refs.length → (st.refOf rid).fromScope < st.scopes.length
  throughLt : ∀ sid, sid < st.scopes.length → ∀ rid ∈ (st.scopeOf sid).through,
      rid < st.refs.length
  unresolvedNil : st.unresolved = []
  stackNe : stack ≠ []
  stackChain : StackChain st stack
  occ : ∀ rid, rid < st.refs.length →
      (if (st.refOf rid).resolved.isSome then 1 else 0) + throughCount st rid = 1
  closedThrough : ∀ sid, sid < st.scopes.length → sid ∉ stack → (st.scopeOf sid).through = []
  pendChain : ∀ sid, sid < st.scopes.length → ∀ rid ∈ (st.scopeOf sid).through,
      PathMiss st stack (st.refOf rid).name (st.refOf rid).fromScope sid
  resolvedOK : ∀ rid, rid < st.refs.length → ∀ bid, (st.refOf rid).resolved = some bid →
      bid < st.bindings.length ∧
      (st.bindOf bid).name = (st.refOf rid).name ∧
      st.findBinding (st.bindOf bid).owningScope (st.refOf rid).name = some bid ∧
      (st.bindOf bid).owningScope ∉ stack ∧
      PathMiss st stack (st.refOf rid).name (st.refOf rid).fromScope (st.bindOf bid).owningScope
  namesNodup : ∀ sid, sid < st.scopes.length →
      ((st.scopeOf sid).bindings.map (fun bid => (st.bindOf bid).name)).Nodup
  defsOK : ∀ bid, bid < st.bindings.length → ∀ d ∈ (st.bindOf bid).defs,
      d.name = (st.bindOf bid).name ∧ d.declScope < st.scopes.length ∧
      (d.kind = .varDef → (st.bindOf bid).owningScope = nearestFGFrom st d.declScope ∧
        (st.scopeOf (st.bindOf bid).owningScope).kind ≠ .block) ∧
      (d.kind = .letOrConst → (st.bindOf bid).owningScope = d.declScope)
  bindRefs : ∀ bid, bid < st.bindings.length → ∀ r ∈ (st.bindOf bid).refs,
      r < st.refs.length ∧ (st.refOf r).resolved = some bid
  bindRefsOpen : ∀ bid, bid < st.bindings.length → (st.bindOf bid).owningScope ∈ stack →
      (st.bindOf bid).refs = []
  bindRefsSorted : ∀ bid, bid < st.bindings.length → List.Pairwise (· < ·) (st.bindOf bid).refs
  throughSorted : ∀ sid, sid < st.scopes.length → List.Pairwise (· < ·) (st.scopeOf sid).through
  strat : Strat st stack

/-- One list extends another by appending records at the end: the only
mutation shape the data model permits besides setting `ResolvedBinding`. -/
def growsTo (l1 l2 : List α) : Prop := ∃ t, l2 = l1 ++ t

/-- Evolution order between analysis states, capturing claim C6: ScopeNodes,
Bindings, Definitions and References are never deleted, their identifying
attributes never change, all record lists only grow at the end, and
`ResolvedBinding` is only ever set when it is still absent (the transient
ThroughReferences work list, which the spec clears after propagation, is the
sole exception and is excluded). -/
structure Evolves (s1 s2 : St) : Prop where
  scopesLen : s1.scopes.length ≤ s2.scopes.length
  scopeKind : ∀ sid, sid < s1.scopes.length → (s2.scopeOf sid).kind = (s1.scopeOf sid).kind
  scopeParent : ∀ sid, sid < s1.scopes.length → (s2.scopeOf sid).parent = (s1.scopeOf sid).parent
  scopeChildren : ∀ sid, sid < s1.scopes.length →
      growsTo (s1.scopeOf sid).children (s2.scopeOf sid).children
  scopeBindings : ∀ sid, sid < s1.scopes.length →
      growsTo (s1.scopeOf sid).bindings (s2.scopeOf sid).bindings
  scopeRefs : ∀ sid, sid < s1.scopes.length →
      growsTo (s1.scopeOf sid).refs (s2.scopeOf sid).refs
  bindsLen : s1.bindings.length ≤ s2.bindings.length
  bindName : ∀ bid, bid < s1.bindings.length → (s2.bindOf bid).name = (s1.bindOf bid).name
  bindOwn : ∀ bid, bid < s1.bindings.length →
      (s2.bindOf bid).owningScope = (s1.bindOf bid).owningScope
  bindDefs : ∀ bid, bid < s1.bindings.length →
      growsTo (s1.bindOf bid).defs (s2.bindOf bid).defs
  bindRefsGrow : ∀ bid, bid < s1.bindings.length →
      growsTo (s1.bindOf bid).refs (s2.bindOf bid).refs
  refsLen : s1.refs.length ≤ s2.refs.length
  refName : ∀ rid, rid < s1.refs.length → (s2.refOf rid).name = (s1.refOf rid).name
  refFromEq : ∀ rid, rid < s1.refs.length → (s2.refOf rid).fromScope = (s1.refOf rid).fromScope
  refResolved : ∀ rid, rid < s1.refs.length →
      (s1.refOf rid).resolved = none ∨ (s2.refOf rid).resolved = (s1.refOf rid).resolved
  unresolvedGrows : growsTo s1.unresolved s2.unresolved

/-- Invariant of the resolver loop while scope `sid` is being closed: `rest`
is the remaining open-scope stack below `sid` and `pend` the still-unprocessed
pending references taken from `sid`'s cleared ThroughReferences list. -/
structure CInv (st : St) (sid : Nat) (rest : List Nat) (pend : List Nat) : Prop where
  scopesNe : st.scopes ≠ []
  rootGlobal : (st.scopeOf 0).kind = .global
  parentLt : ∀ s, s < st.scopes.length → ∀ p, (st.scopeOf s).parent = some p → p < s
  parentRoot : ∀ s, s < st.scopes.length → ((st.scopeOf s).parent = none ↔ s = 0)
  scopeBinds : ∀ s, s < st.scopes.length → ∀ bid ∈ (st.scopeOf s).bindings,
      bid < st.bindings.length ∧ (st.bindOf bid).owningScope = s
  bindOwner : ∀ bid, bid < st.bindings.length →
      (st.bindOf bid).owningScope < st.scopes.length ∧
      bid ∈ (st.scopeOf (st.bindOf bid).owningScope).bindings
  refFrom : ∀ rid, rid < st.refs.length → (st.refOf rid).fromScope < st.scopes.length
  throughLt : ∀ s, s < st.scopes.length → ∀ rid ∈ (st.scopeOf s).through, rid < st.refs.length
  pendLt : ∀ rid ∈ pend, rid < st.refs.length
  unresolvedOK : ∀ rid ∈ st.unresolved, rid < st.refs.length ∧
      ChainMiss st (st.refOf rid).name (st.refOf rid).fromScope
  sidLt : sid < st.scopes.length
  sidNotin : sid ∉ rest
  sidParent : (st.scopeOf sid).parent = rest.head?
  stackChain : StackChain st rest
  occ : ∀ rid, rid < st.refs.length →
      (if (st.refOf rid).resolved.isSome then 1 else 0) + throughCount st rid +
        pend.count rid + st.unresolved.count rid = 1
  closedThrough : ∀ s, s < st.scopes.length → s ∉ rest → (st.scopeOf s).through = []
  pendChain : ∀ s, s < st.scopes.length → ∀ rid ∈ (st.scopeOf s).through,
      PathMiss st rest (st.refOf rid).name (st.refOf rid).fromScope s
  pendChainSid : ∀ rid ∈ pend,
      PathMiss st (sid :: rest) (st.refOf rid).name (st.refOf rid).fromScope sid
  resolvedOK : ∀ rid, rid < st.refs.length → ∀ bid, (st.refOf rid).resolved = some bid →
      bid < st.bindings.length ∧
      (st.bindOf bid).name = (st.refOf rid).name ∧
      st.findBinding (st.bindOf bid).owningScope (st.refOf rid).name = some bid ∧
      (st.bindOf bid).owningScope ∉ rest ∧
      PathMiss st rest (st.refOf rid).name (st.refOf rid).fromScope (st.bindOf bid).owningScope
  namesNodup : ∀ s, s < st.scopes.length →
      ((st.scopeOf s).bindings.map (fun bid => (st.bindOf bid).name)).Nodup
  defsOK : ∀ bid, bid < st.bindings.length → ∀ d ∈ (st.bindOf bid).defs,
      d.name = (st.bindOf bid).name ∧ d.declScope < st.scopes.length ∧
      (d.kind = .varDef → (st.bindOf bid).owningScope = nearestFGFrom st d.declScope ∧
        (st.scopeOf (st.bindOf bid).owningScope).kind ≠ .block) ∧
      (d.kind = .letOrConst → (st.bindOf bid).owningScope = d.declScope)
  bindRefs : ∀ bid, bid < st.bindings.length → ∀ r ∈ (st.bindOf bid).refs,
      r < st.refs.length ∧ (st.refOf r).resolved = some bid
  bindRefsOpen : ∀ bid, bid < st.bindings.length → (st.bindOf bid).owningScope ∈ rest →
      (st.bindOf bid).refs = []
  bindRefsSid : ∀ bid, bid < st.bindings.length → (st.bindOf bid).owningScope = sid →
      ∀ r ∈ (st.bindOf bid).refs, ∀ q ∈ pend, r < q
  bindRefsSorted : ∀ bid, bid < st.bindings.length → List.Pairwise (· < ·) (st.bindOf bid).refs
  throughSorted : ∀ s, s < st.scopes.length → List.Pairwise (· < ·) (st.scopeOf s).through
  pendSorted : List.Pairwise (· < ·) pend
  strat : Strat st rest
  stratPend : ∀ p ∈ rest, ∀ x ∈ (st.scopeOf p).through, ∀ y ∈ pend, x < y

/-- Facts about the finished analysis state that the claims consume. -/
structure FinalOK (st : St) : Prop where
  exclusive : ∀ rid, rid < st.refs.length →
      (if (st.refOf rid).resolved.isSome then 1 else 0) + st.unresolved.count rid = 1
  lookupEq : ∀ rid, rid < st.refs.length →
      (st.refOf rid).resolved = lookupNearest st (st.refOf rid).fromScope (st.refOf rid).name
  unresolvedNone : ∀ rid ∈ st.unresolved, rid < st.refs.length ∧ (st.refOf rid).resolved = none
  nodup : ∀ sid, sid < st.scopes.length →
      ((st.scopeOf sid).bindings.map (fun bid => (st.bindOf bid).name)).Nodup
  defsFinal : ∀ bid, bid < st.bindings.length → ∀ d ∈ (st.bindOf bid).defs,
      d.name = (st.bindOf bid).name ∧
      (d.kind = .varDef → (st.bindOf bid).owningScope = nearestFGFrom st d.declScope ∧
        (st.scopeOf (st.bindOf bid).owningScope).kind ≠ .block) ∧
      (d.kind = .letOrConst → (st.bindOf bid).owningScope = d.declScope)
  sortedRefs : ∀ bid, bid < st.bindings.length →
      List.Pairwise (· < ·) (st.bindOf bid).refs ∧
      ∀ r ∈ (st.bindOf bid).refs, r < st.refs.length ∧ (st.refOf r).resolved = some bid

/-- Concrete program of the shadowing test fixture: `let x; { let x; use(x); }`. -/
def progShadow : List Stmt := [.letDecl "x", .block [.letDecl "x", .use "x"]]

/-- Concrete program of the hoisting test fixture: a function whose body is
`{ { var x = 1; } } use(x);`. -/
def progHoist : List Stmt := [.func [.block [.block [.varDecl "x"]], .use "x"]]

/-- Concrete program of the redeclaration-merge test fixture:
`var x; var x; use(x);`. -/
def progMerge : List Stmt := [.varDecl "x", .varDecl "x", .use "x"]

/-- Concrete program of the block-scope-isolation test fixture:
`{ let x = 1; } use(x);`. -/
def progIso : List Stmt := [.block [.letDecl "x"], .use "x"]

end ScopeEngine

namespace RuleModel

/-- Elements of one regexpp pattern alternative, as far as
`parseRegExpText` inspects them: assertions with their kind, plain
`Character` elements with their code point value, and everything else
(character classes, groups, quantifiers, backreferences, ...). -/
inductive RElement
  | assertionStart
  | assertionEnd
  | assertionOther
  | char (value : Nat)
  | other
deriving DecidableEq, Repr

def isStartAssertion : RElement → Bool
  | .assertionStart => true
  | _ => false

def isCharElem : RElement → Bool
  | .char _ => true
  | _ => false

def charValue : RElement → Option Nat
  | .char v => some v
  | _ => none

/-- Static values as `getStaticValue` can report them to this rule: JavaScript
strings are modelled as their sequences of UTF-16 code units, and a RegExp
value carries its `source` text, its `flags` text, and the regexpp parse of
its source (the list of alternatives, each a list of elements). -/
inductive JSVal
  | str (units : List Nat)
  | num (n : Int)
  | nul
  | re (source : String) (flags : String) (alts : List (List RElement))
deriving DecidableEq, Repr

/-- Expressions as far as the handlers of the rule inspect them: a node with a
known static value (literal or an identifier `getStaticValue` can evaluate),
an opaque node without one, a non-computed member access, a binary and a
unary operator node.  `isSameTokens` is modelled as syntactic equality. -/
inductive Expr
  | lit (v : JSVal)
  | opaqueE (id : Nat)
  | member (obj : Expr) (prop : String)
  | binop (op : String) (l r : Expr)
  | unop (op : String) (e : Expr)
deriving DecidableEq, Repr

/-- Model of `getStaticValue` on the node shapes the handlers feed it: the
value attached to a value node, nothing for the rest (member/unary/binary
expressions over non-static parts, opaque nodes). -/
def getStaticValue : Expr → Option JSVal
  | .lit v => some v
  | _ => none

/-- Translation of `isNull` (source lines 84-87): the static value exists and
is loosely equal to null (null or undefined; the model keeps only null). -/
def isNull (e : Expr) : Bool :=
  match getStaticValue e with
  | some .nul => true
  | _ => false

/-- Translation of `isNumber` (source lines 94-100): the static value exists
and strictly equals the expected number. -/
def isNumber (e : Expr) (value : Int) : Bool :=
  match getStaticValue e with
  | some (.num n) => n == value
  | _ => false

/-- Translation of `isCharacter` (source lines 106-114): the static value is a
string whose first element (`value[0]`, a one-code-unit string in JavaScript)
strictly equals the whole string. -/
def isCharacter (e : Expr) : Bool :=
  match getStaticValue e with
  | some (.str (_ :: rest)) => rest.isEmpty
  | _ => false

/-- Translation of `EQ_OPERATORS` = `/^[=!]=/` and `isEqualityComparison`
(source lines 19, 120-127) on the operator text of a binary expression. -/
def isEqOp (op : String) : Bool :=
  match op.data with
  | c1 :: c2 :: _ => (c1 == '=' || c1 == '!') && c2 == '='
  | _ => false

/-- Translation of `isLengthExpression` (source lines 165-185): either a
`length` member access whose object has the same tokens as the expected
object, or both sides evaluate statically and the number equals the string's
length (in code units). -/
def isLengthExpression (node expectedObjectNode : Expr) : Bool :=
  match node with
  | .member obj prop => prop == "length" && obj == expectedObjectNode
  | _ =>
      match getStaticValue node, getStaticValue expectedObjectNode with
      | some (.num n), some (.str units) => n == (units.length : Int)
      | _, _ => false

/-- Translation of `isLastIndexExpression` (source lines 215-225): the node is
`<obj>.length - 1` for the expected object. -/
def isLastIndexExpression (node expectedObjectNode : Expr) : Bool :=
  match node with
  | .binop op l r => op == "-" && isLengthExpression l expectedObjectNode && isNumber r 1
  | _ => false

/-- Options of the rule: `allowSingleElementEquality` (source line 63 gives
the default `never`). -/
inductive AllowOpt
  | always
  | never
deriving DecidableEq, Repr

inductive MsgId
  | preferStartsWith
  | preferEndsWith
deriving DecidableEq, Repr

/-- Shape of a matched `<obj>[<index>] <op> <right>` or
`<obj>.charAt(<index>) <op> <right>` occurrence as the first handler
(source lines 388-450) sees it after `getParent` walks: `index` is `none`
when the `charAt` call does not have exactly one argument, `objIsString`
abstracts `isStringType(node.object)`, and `op`/`right` come from the
enclosing binary expression. -/
structure CharAtMatch where
  obj : Expr
  objIsString : Bool
  index : Option Expr
  op : String
  right : Expr
deriving DecidableEq, Repr

/-- Translation of the report decision of the charAt/index handler (source
lines 411-435): bail out unless an index is present, the parent is an
equality comparison and the object is a string; report unless the allowed
single-element-equality option suppresses the matched form, or the index is
neither `0` nor the last index. -/
def charAtReport (allow : AllowOpt) (m : CharAtMatch) : Option MsgId :=
  match m.index with
  | none => none
  | some indexNode =>
      if !isEqOp m.op || !m.objIsString then none
      else
        let isEnds := isLastIndexExpression indexNode m.obj
        if allow == .always && isEnds then none
        else
          let isStarts := !isEnds && isNumber indexNode 0
          if (allow == .always && isStarts) || (!isStarts && !isEnds) then none
          else some (if isStarts then .preferStartsWith else .preferEndsWith)

/-- Result of `fixWithRightOperand` (source lines 331-350), abstracted to the
data that determines the emitted edits. -/
structure FixData where
  kind : MsgId
  negative : Bool
deriving DecidableEq, Repr

/-- Translation of the `fix` callback of the charAt/index handler (source
lines 436-448): no edit unless the right operand is a single character,
otherwise `fixWithRightOperand`. -/
def charAtFix (m : CharAtMatch) (isStarts : Bool) : Option FixData :=
  if !isCharacter m.right then none
  else some ⟨if isStarts then .preferStartsWith else .preferEndsWith, m.op.startsWith "!"⟩

/-- Model of the JavaScript call checking that `text` starts with the caret
character: the first code unit of the source is `^`. -/
def startsWithCaret (s : String) : Bool :=
  match s.data with
  | c :: _ => c == '^'
  | [] => false

/-- Model of the JavaScript call checking that `text` ends with the dollar
character: the last code unit of the source is `$`. -/
def endsWithDollar (s : String) : Bool :=
  match s.data.getLast? with
  | some c => c == '$'
  | none => false

/-- Model of JavaScript `flags.includes(c)`. -/
def flagsHave (s : String) (c : Char) : Bool := s.data.contains c

/-- Translation of the anchor-dropping step of `parseRegExpText` (source
lines 260-267): shift the first element when it is a `start` assertion,
otherwise pop the last element — whatever it is. -/
def removeAnchor (elems : List RElement) : List RElement :=
  match elems with
  | e :: rest => if isStartAssertion e then rest else (e :: rest).dropLast
  | [] => []

/-- Translation of `parseRegExpText` (source lines 251-276) on the parsed
pattern: require a single alternative, drop the anchor position, require
every remaining element to be a plain `Character`, and return the code
points. -/
def parseRegExpText (alts : List (List RElement)) : Option (List Nat) :=
  match alts with
  | [elems] =>
      let chars := removeAnchor elems
      if chars.all isCharElem then some (chars.filterMap charValue) else none
  | _ => none

structure ParsedRE where
  isEndsWith : Bool
  isStartsWith : Bool
  text : List Nat
deriving DecidableEq, Repr

/-- Translation of `parseRegExp` (source lines 282-307): the static value must
be a RegExp; its source must start with `^` or end with `$` but not both; the
flags must contain neither `i` nor `m`; and `parseRegExpText` must determine
a unique string. -/
def parseRegExp (v : Option JSVal) : Option ParsedRE :=
  match v with
  | some (.re source flags alts) =>
      let isStarts := startsWithCaret source
      let isEnds := endsWithDollar source
      if (isStarts == isEnds) || flagsHave flags 'i' || flagsHave flags 'm' then none
      else
        match parseRegExpText alts with
        | none => none
        | some text => some ⟨isEnds, isStarts, text⟩
  | _ => none

/-- Condition of claim C8 taken at its word, for comparison with the code:
the source starts with `^` or ends with `$` (not both), the flags contain
neither `i` nor `m`, and the pattern is a single alternative consisting,
after removing the anchor element (the leading start assertion resp. the
trailing end assertion), only of plain `Character` elements. -/
def claimC8Cond (source flags : String) (alts : List (List RElement)) : Bool :=
  (startsWithCaret source != endsWithDollar source) &&
  !flagsHave flags 'i' && !flagsHave flags 'm' &&
  (match alts with
   | [elems] =>
       if startsWithCaret source then
         match elems with
         | e :: rest => isStartAssertion e && rest.all isCharElem
         | [] => false
       else
         (match elems.getLast? with
          | some e => e == RElement.assertionEnd
          | none => false) && elems.dropLast.all isCharElem
   | _ => false)

/-- Corrected condition, read off the code: same as `claimC8Cond` except that
the element removed at the anchor position need not be an assertion — the
code pops the last element unconditionally when the source does not start
with `^`. -/
def amendedC8Cond (source flags : String) (alts : List (List RElement)) : Bool :=
  (startsWithCaret source != endsWithDollar source) &&
  !flagsHave flags 'i' && !flagsHave flags 'm' &&
  (match alts with
   | [elems] => (removeAnchor elems).all isCharElem
   | _ => false)

/-- Thin model of the `RegExp#test` handler (source lines 681-719): it reports
exactly when the call has one argument and `parseRegExp` accepts the callee
object, choosing the message from `isStartsWith`. -/
def testHandlerReport (argCount : Nat) (objVal : Option JSVal) : Option MsgId :=
  match (if argCount == 1 then parseRegExp objVal else none) with
  | none => none
  | some parsed => some (if parsed.isStartsWith then .preferStartsWith else .preferEndsWith)

end RuleModel

namespace ScopeEngine

theorem getD_append_lt {α : Type} (l l2 : List α) (i : Nat) (d : α) (h : i < l.length) :
    (l ++ l2).getD i d = l.getD i d := by
  simp [List.getD, List.getElem?_append, h]

theorem getD_append_self {α : Type} (l : List α) (a : α) (d : α) :
    (l ++ [a]).getD l.length d = a := by
  simp [List.getD]

theorem getD_set_self {α : Type} (l : List α) (i : Nat) (a d : α) (h : i < l.length) :
    (l.set i a).getD i d = a := by
  simp [List.getD, List.getElem?_set, h]

theorem getD_set_ne {α : Type} (l : List α) (i j : Nat) (a d : α) (h : i ≠ j) :
    (l.set i a).getD j d = l.getD j d := by
  simp [List.getD, List.getElem?_set, h]

theorem getD_ge {α : Type} (l : List α) (i : Nat) (d : α) (h : l.length ≤ i) :
    l.getD i d = d := by
  simp [List.getD, List.getElem?_eq_none h]

theorem sum_map_set {α : Type} (f : α → Nat) (l : List α) (i : Nat) (a : α) (d : α)
    (h : i < l.length) :
    ((l.set i a).map f).sum + f (l.getD i d) = (l.map f).sum + f a := by
  induction l generalizing i with
  | nil => simp at h
  | cons x xs ih =>
    cases i with
    | zero => simp [List.getD]; omega
    | succ j =>
      have hj : j < xs.length := by simpa using h
      have := ih j hj
      simp [List.getD] at this ⊢
      omega

theorem find?_congr {α : Type} (l : List α) (f g : α → Bool) (h : ∀ x ∈ l, f x = g x) :
    l.find? f = l.find? g := by
  induction l with
  | nil => rfl
  | cons x xs ih =>
    have hx := h x (by simp)
    by_cases hfx : f x = true
    · rw [List.find?_cons_of_pos _ hfx, List.find?_cons_of_pos _ (hx ▸ hfx)]
    · have hgx : ¬ g x = true := by rw [← hx]; exact hfx
      rw [List.find?_cons_of_neg _ hfx, List.find?_cons_of_neg _ hgx]
      exact ih (fun y hy => h y (by simp [hy]))

end ScopeEngine

namespace ScopeEngine

theorem scopeOf_setScope_self (st : St) (sid : Nat) (sc : ScopeNode)
    (h : sid < st.scopes.length) : (setScope st sid sc).scopeOf sid = sc := by
  simp only [setScope, St.scopeOf]
  exact getD_set_self _ _ _ _ h

theorem scopeOf_setScope_ne (st : St) (sid t : Nat) (sc : ScopeNode) (h : sid ≠ t) :
    (setScope st sid sc).scopeOf t = st.scopeOf t := by
  simp only [setScope, St.scopeOf]
  exact getD_set_ne _ _ _ _ _ h

theorem setScope_length (st : St) (sid : Nat) (sc : ScopeNode) :
    (setScope st sid sc).scopes.length = st.scopes.length := by
  simp [setScope]

theorem setScope_bindsEq (st : St) (sid : Nat) (sc : ScopeNode) :
    (setScope st sid sc).bindings = st.bindings := rfl

theorem setScope_refsEq (st : St) (sid : Nat) (sc : ScopeNode) :
    (setScope st sid sc).refs = st.refs := rfl

theorem setScope_unresolvedEq (st : St) (sid : Nat) (sc : ScopeNode) :
    (setScope st sid sc).unresolved = st.unresolved := rfl

theorem setScope_bindOf (st : St) (sid : Nat) (sc : ScopeNode) (bid : Nat) :
    (setScope st sid sc).bindOf bid = st.bindOf bid := rfl

theorem setScope_refOf (st : St) (sid : Nat) (sc : ScopeNode) (rid : Nat) :
    (setScope st sid sc).refOf rid = st.refOf rid := rfl

theorem bindOf_setBind_self (st : St) (bid : Nat) (b : BindingRec)
    (h : bid < st.bindings.length) : (setBind st bid b).bindOf bid = b := by
  simp only [setBind, St.bindOf]
  exact getD_set_self _ _ _ _ h

theorem bindOf_setBind_ne (st : St) (bid t : Nat) (b : BindingRec) (h : bid ≠ t) :
    (setBind st bid b).bindOf t = st.bindOf t := by
  simp only [setBind, St.bindOf]
  exact getD_set_ne _ _ _ _ _ h

theorem setBind_length (st : St) (bid : Nat) (b : BindingRec) :
    (setBind st bid b).bindings.length = st.bindings.length := by
  simp [setBind]

theorem setBind_scopeOf (st : St) (bid : Nat) (b : BindingRec) (sid : Nat) :
    (setBind st bid b).scopeOf sid = st.scopeOf sid := rfl

theorem setBind_scopesEq (st : St) (bid : Nat) (b : BindingRec) :
    (setBind st bid b).scopes = st.scopes := rfl

theorem setBind_refOf (st : St) (bid : Nat) (b : BindingRec) (rid : Nat) :
    (setBind st bid b).refOf rid = st.refOf rid := rfl

theorem setBind_refsEq (st : St) (bid : Nat) (b : BindingRec) :
    (setBind st bid b).refs = st.refs := rfl

theorem setBind_unresolvedEq (st : St) (bid : Nat) (b : BindingRec) :
    (setBind st bid b).unresolved = st.unresolved := rfl

theorem refOf_setRef_self (st : St) (rid : Nat) (r : RefRec)
    (h : rid < st.refs.length) : (setRef st rid r).refOf rid = r := by
  simp only [setRef, St.refOf]
  exact getD_set_self _ _ _ _ h

theorem refOf_setRef_ne (st : St) (rid t : Nat) (r : RefRec) (h : rid ≠ t) :
    (setRef st rid r).refOf t = st.refOf t := by
  simp only [setRef, St.refOf]
  exact getD_set_ne _ _ _ _ _ h

theorem setRef_length (st : St) (rid : Nat) (r : RefRec) :
    (setRef st rid r).refs.length = st.refs.length := by
  simp [setRef]

theorem setRef_scopeOf (st : St) (rid : Nat) (r : RefRec) (sid : Nat) :
    (setRef st rid r).scopeOf sid = st.scopeOf sid := rfl

theorem setRef_scopesEq (st : St) (rid : Nat) (r : RefRec) :
    (setRef st rid r).scopes = st.scopes := rfl

theorem setRef_bindOf (st : St) (rid : Nat) (r : RefRec) (bid : Nat) :
    (setRef st rid r).bindOf bid = st.bindOf bid := rfl

theorem setRef_bindsEq (st : St) (rid : Nat) (r : RefRec) :
    (setRef st rid r).bindings = st.bindings := rfl

theorem setRef_unresolvedEq (st : St) (rid : Nat) (r : RefRec) :
    (setRef st rid r).unresolved = st.unresolved := rfl

theorem findBinding_setRef (st : St) (rid : Nat) (r : RefRec) (f : Nat) (n : String) :
    (setRef st rid r).findBinding f n = st.findBinding f n := rfl

theorem findBinding_setScope (st : St) (sid : Nat) (sc : ScopeNode) (f : Nat) (n : String)
    (h : sc.bindings = (st.scopeOf sid).bindings) :
    (setScope st sid sc).findBinding f n = st.findBinding f n := by
  by_cases hf : sid = f
  · subst hf
    by_cases hlt : sid < st.scopes.length
    · simp [St.findBinding, scopeOf_setScope_self _ _ _ hlt, h, setScope_bindOf]
    · have : st.scopes.set sid sc = st.scopes := List.set_eq_of_length_le (by omega)
      simp [St.findBinding, setScope, St.scopeOf, this]
  · simp [St.findBinding, scopeOf_setScope_ne _ _ _ _ hf, setScope_bindOf]

theorem findBinding_setBind (st : St) (bid : Nat) (b : BindingRec)
    (hname : b.name = (st.bindOf bid).name) (f : Nat) (n : String) :
    (setBind st bid b).findBinding f n = st.findBinding f n := by
  by_cases hlt : bid < st.bindings.length
  · unfold St.findBinding
    rw [setBind_scopeOf]
    apply find?_congr
    intro x hx
    by_cases hxb : bid = x
    · subst hxb; rw [bindOf_setBind_self _ _ _ hlt, hname]
    · rw [bindOf_setBind_ne _ _ _ _ hxb]
  · have : st.bindings.set bid b = st.bindings := List.set_eq_of_length_le (by omega)
    simp [St.findBinding, setBind, St.bindOf, this]

theorem findBinding_unresolvedAppend (st : St) (l : List Nat) (f : Nat) (n : String) :
    (St.findBinding { st with unresolved := l } f n) = st.findBinding f n := rfl

theorem throughCount_setScope (st : St) (sid : Nat) (sc : ScopeNode) (rid : Nat)
    (h : sid < st.scopes.length) :
    throughCount (setScope st sid sc) rid + (st.scopeOf sid).through.count rid =
      throughCount st rid + sc.through.count rid := by
  have := sum_map_set (fun s => s.through.count rid) st.scopes sid sc defaultScope h
  simpa [throughCount, setScope, St.scopeOf] using this

theorem throughCount_setBind (st : St) (bid : Nat) (b : BindingRec) (rid : Nat) :
    throughCount (setBind st bid b) rid = throughCount st rid := rfl

theorem throughCount_setRef (st : St) (i : Nat) (r : RefRec) (rid : Nat) :
    throughCount (setRef st i r) rid = throughCount st rid := rfl

theorem throughCount_unresolvedAppend (st : St) (l : List Nat) (rid : Nat) :
    throughCount { st with unresolved := l } rid = throughCount st rid := rfl

theorem throughCount_appendScope (st : St) (node : ScopeNode) (rid : Nat) :
    throughCount { st with scopes := st.scopes ++ [node] } rid =
      throughCount st rid + node.through.count rid := by
  simp [throughCount]

theorem throughCount_zero_of_empty (st : St)
    (h : ∀ sid, sid < st.scopes.length → (st.scopeOf sid).through = []) (rid : Nat) :
    throughCount st rid = 0 := by
  apply List.sum_eq_zero
  intro x hx
  rw [List.mem_map] at hx
  obtain ⟨sc, hsc, rfl⟩ := hx
  rw [List.mem_iff_getElem] at hsc
  obtain ⟨i, hi, rfl⟩ := hsc
  have := h i hi
  simp only [St.scopeOf, List.getD, List.get?_eq_getElem?, List.getElem?_eq_getElem hi,
    Option.getD_some] at this
  rw [this]
  rfl

end ScopeEngine

namespace ScopeEngine

theorem stackChain_mem_lt {st : St} {stack : List Nat} (h : StackChain st stack) :
    ∀ s ∈ stack, s < st.scopes.length := by
  induction stack with
  | nil => simp
  | cons s rest ih =>
    intro x hx
    rw [StackChain] at h
    rw [List.mem_cons] at hx
    rcases hx with hx | hx
    · subst hx; exact h.1
    · exact ih h.2.2 x hx

theorem stackChain_congr {st st' : St} {stack : List Nat}
    (hlen : st.scopes.length ≤ st'.scopes.length)
    (hpar : ∀ s, s < st.scopes.length → (st'.scopeOf s).parent = (st.scopeOf s).parent)
    (h : StackChain st stack) : StackChain st' stack := by
  induction stack with
  | nil => trivial
  | cons s rest ih =>
    rw [StackChain] at h ⊢
    exact ⟨by omega, by rw [hpar s h.1]; exact h.2.1, ih h.2.2⟩

theorem stackChain_sorted {st : St} {stack : List Nat}
    (hplt : ∀ sid, sid < st.scopes.length → ∀ p, (st.scopeOf sid).parent = some p → p < sid)
    (h : StackChain st stack) : List.Pairwise (· > ·) stack := by
  induction stack with
  | nil => exact List.Pairwise.nil
  | cons s rest ih =>
    rw [StackChain] at h
    obtain ⟨hs, hp, hrest⟩ := h
    have htail := ih hrest
    constructor
    · intro x hx
      cases rest with
      | nil => simp at hx
      | cons t r =>
        have hts : t < s := hplt s hs t (by simpa using hp)
        rw [List.mem_cons] at hx
        rcases hx with hx | hx
        · omega
        · have := List.rel_of_pairwise_cons htail hx
          omega
    · exact htail

theorem stackChain_notMem_tail {st : St} {s : Nat} {rest : List Nat}
    (hplt : ∀ sid, sid < st.scopes.length → ∀ p, (st.scopeOf sid).parent = some p → p < sid)
    (h : StackChain st (s :: rest)) : s ∉ rest := by
  have := stackChain_sorted hplt h
  intro hmem
  have := List.rel_of_pairwise_cons this hmem
  omega

theorem strat_congr {st st' : St} {stack : List Nat}
    (hth : ∀ s ∈ stack, (st'.scopeOf s).through = (st.scopeOf s).through)
    (h : Strat st stack) : Strat st' stack := by
  induction stack with
  | nil => trivial
  | cons s rest ih =>
    rw [Strat] at h ⊢
    refine ⟨?_, ih (fun x hx => hth x (by simp [hx])) h.2⟩
    intro p hp x hx y hy
    rw [hth p (by simp [hp])] at hx
    rw [hth s (by simp)] at hy
    exact h.1 p hp x hx y hy

theorem pathMiss_congr {st st' : St} {stack : List Nat} {n : String} {f sid : Nat}
    (hfb : ∀ g, g ∉ stack → st'.findBinding g n = st.findBinding g n)
    (hpar : ∀ g, (st'.scopeOf g).parent = (st.scopeOf g).parent)
    (h : PathMiss st stack n f sid) : PathMiss st' stack n f sid := by
  induction h with
  | refl sid => exact PathMiss.refl sid
  | step f p sid hnotin hmiss hpar2 htail ih =>
    exact PathMiss.step f p sid hnotin (by rw [hfb f hnotin]; exact hmiss)
      (by rw [hpar f]; exact hpar2) ih

theorem pathMiss_congr_lt {st st' : St} {stack : List Nat} {n : String} {f sid : Nat} (L : Nat)
    (hfb : ∀ g, g < L → g ∉ stack → st'.findBinding g n = st.findBinding g n)
    (hpar : ∀ g, g < L → (st'.scopeOf g).parent = (st.scopeOf g).parent)
    (hplt : ∀ g, g < L → ∀ p, (st.scopeOf g).parent = some p → p < g)
    (hf : f < L)
    (h : PathMiss st stack n f sid) : PathMiss st' stack n f sid := by
  induction h with
  | refl sid => exact PathMiss.refl sid
  | step f p sid hnotin hmiss hpar2 htail ih =>
    have hp : p < f := hplt f hf p hpar2
    exact PathMiss.step f p sid hnotin (by rw [hfb f hf hnotin]; exact hmiss)
      (by rw [hpar f hf]; exact hpar2) (ih (by omega))

theorem pathMiss_subStack {st : St} {stack stack' : List Nat} {n : String} {f sid : Nat}
    (hsub : ∀ g, g ∈ stack' → g ∈ stack)
    (h : PathMiss st stack n f sid) : PathMiss st stack' n f sid := by
  induction h with
  | refl sid => exact PathMiss.refl sid
  | step f p sid hnotin hmiss hpar htail ih =>
    exact PathMiss.step f p sid (fun hc => hnotin (hsub f hc)) hmiss hpar ih

theorem pathMiss_stackCons {st : St} {stack : List Nat} {n : String} {f sid : Nat} {c L : Nat}
    (hfL : f < L) (hcL : L ≤ c)
    (hplt : ∀ g, g < L → ∀ p, (st.scopeOf g).parent = some p → p < g)
    (h : PathMiss st stack n f sid) : PathMiss st (c :: stack) n f sid := by
  induction h with
  | refl sid => exact PathMiss.refl sid
  | step f p sid hnotin hmiss hpar htail ih =>
    have hp : p < f := hplt f hfL p hpar
    refine PathMiss.step f p sid ?_ hmiss hpar (ih (by omega))
    intro hc
    rw [List.mem_cons] at hc
    rcases hc with hc | hc
    · omega
    · exact hnotin hc

theorem pathMiss_snoc_aux {st : St} {rest : List Nat} {n : String} {sid p : Nat}
    (hnot : sid ∉ rest) (hmiss : st.findBinding sid n = none)
    (hpar : (st.scopeOf sid).parent = some p) :
    ∀ {f g : Nat}, PathMiss st (sid :: rest) n f g → g = sid → PathMiss st rest n f p := by
  intro f g h
  induction h with
  | refl s =>
    intro hg; subst hg
    exact PathMiss.step s p p hnot hmiss hpar (PathMiss.refl p)
  | step f q s2 hnotin hmiss2 hpar2 htail ih =>
    intro hg
    refine PathMiss.step f q p (fun hc => hnotin (by simp [hc])) hmiss2 hpar2 (ih hg)

theorem pathMiss_snoc {st : St} {rest : List Nat} {n : String} {f sid p : Nat}
    (hnot : sid ∉ rest) (hmiss : st.findBinding sid n = none)
    (hpar : (st.scopeOf sid).parent = some p)
    (h : PathMiss st (sid :: rest) n f sid) : PathMiss st rest n f p :=
  pathMiss_snoc_aux hnot hmiss hpar h rfl

theorem chainMiss_congr {st st' : St} {n : String} {f : Nat}
    (hfb : ∀ g, st'.findBinding g n = st.findBinding g n)
    (hpar : ∀ g, (st'.scopeOf g).parent = (st.scopeOf g).parent)
    (h : ChainMiss st n f) : ChainMiss st' n f := by
  induction h with
  | root f hmiss hp => exact ChainMiss.root f (by rw [hfb]; exact hmiss) (by rw [hpar]; exact hp)
  | step f p hmiss hp htail ih =>
    exact ChainMiss.step f p (by rw [hfb]; exact hmiss) (by rw [hpar]; exact hp) ih

theorem growsTo_refl {α : Type} (l : List α) : growsTo l l := ⟨[], by simp⟩

theorem growsTo_trans {α : Type} {a b c : List α} (h1 : growsTo a b) (h2 : growsTo b c) :
    growsTo a c := by
  obtain ⟨t1, rfl⟩ := h1
  obtain ⟨t2, rfl⟩ := h2
  exact ⟨t1 ++ t2, by simp⟩

theorem growsTo_append {α : Type} (l t : List α) : growsTo l (l ++ t) := ⟨t, rfl⟩

theorem evolves_refl (st : St) : Evolves st st :=
  ⟨le_refl _, fun _ _ => Eq.refl _, fun _ _ => Eq.refl _, fun _ _ => growsTo_refl _,
   fun _ _ => growsTo_refl _, fun _ _ => growsTo_refl _, le_refl _, fun _ _ => Eq.refl _,
   fun _ _ => Eq.refl _, fun _ _ => growsTo_refl _, fun _ _ => growsTo_refl _, le_refl _,
   fun _ _ => Eq.refl _, fun _ _ => Eq.refl _, fun _ _ => Or.inr (Eq.refl _), growsTo_refl _⟩

theorem evolves_trans {s1 s2 s3 : St} (h1 : Evolves s1 s2) (h2 : Evolves s2 s3) :
    Evolves s1 s3 := by
  have l1 := h1.scopesLen
  have l2 := h1.bindsLen
  have l3 := h1.refsLen
  refine ⟨le_trans h1.scopesLen h2.scopesLen, ?_, ?_, ?_, ?_, ?_,
    le_trans h1.bindsLen h2.bindsLen, ?_, ?_, ?_, ?_,
    le_trans h1.refsLen h2.refsLen, ?_, ?_, ?_, ?_⟩
  · intro sid h; rw [h2.scopeKind sid (by omega), h1.scopeKind sid h]
  · intro sid h; rw [h2.scopeParent sid (by omega), h1.scopeParent sid h]
  · intro sid h; exact growsTo_trans (h1.scopeChildren sid h) (h2.scopeChildren sid (by omega))
  · intro sid h; exact growsTo_trans (h1.scopeBindings sid h) (h2.scopeBindings sid (by omega))
  · intro sid h; exact growsTo_trans (h1.scopeRefs sid h) (h2.scopeRefs sid (by omega))
  · intro bid h; rw [h2.bindName bid (by omega), h1.bindName bid h]
  · intro bid h; rw [h2.bindOwn bid (by omega), h1.bindOwn bid h]
  · intro bid h; exact growsTo_trans (h1.bindDefs bid h) (h2.bindDefs bid (by omega))
  · intro bid h; exact growsTo_trans (h1.bindRefsGrow bid h) (h2.bindRefsGrow bid (by omega))
  · intro rid h; rw [h2.refName rid (by omega), h1.refName rid h]
  · intro rid h; rw [h2.refFromEq rid (by omega), h1.refFromEq rid h]
  · intro rid h
    rcases h1.refResolved rid h with hnone | heq
    · exact Or.inl hnone
    · rcases h2.refResolved rid (by omega) with hnone2 | heq2
      · rw [heq] at hnone2; exact Or.inl hnone2
      · exact Or.inr (by rw [heq2, heq])
  · exact growsTo_trans h1.unresolvedGrows h2.unresolvedGrows

end ScopeEngine

namespace ScopeEngine

theorem curScope_cons (s : Nat) (rest : List Nat) : curScope (s :: rest) = s := rfl

theorem nearestFGAux_congr {st st' : St}
    (hk : ∀ g, (st'.scopeOf g).kind = (st.scopeOf g).kind)
    (hp : ∀ g, (st'.scopeOf g).parent = (st.scopeOf g).parent) :
    ∀ fuel s, nearestFGAux st' fuel s = nearestFGAux st fuel s := by
  intro fuel
  induction fuel with
  | zero => intro s; rfl
  | succ f ih =>
    intro s
    rw [nearestFGAux, nearestFGAux, hk s, hp s]
    cases hks : (st.scopeOf s).kind <;> simp
    cases hps : (st.scopeOf s).parent <;> simp [ih]

theorem nearestFGAux_congr_lt {st st' : St} (L : Nat)
    (hk : ∀ g, g < L → (st'.scopeOf g).kind = (st.scopeOf g).kind)
    (hp : ∀ g, g < L → (st'.scopeOf g).parent = (st.scopeOf g).parent)
    (hplt : ∀ g, g < L → ∀ p, (st.scopeOf g).parent = some p → p < g) :
    ∀ fuel s, s < L → nearestFGAux st' fuel s = nearestFGAux st fuel s := by
  intro fuel
  induction fuel with
  | zero => intro s _; rfl
  | succ f ih =>
    intro s hs
    rw [nearestFGAux, nearestFGAux, hk s hs, hp s hs]
    cases hks : (st.scopeOf s).kind <;> simp
    cases hps : (st.scopeOf s).parent with
    | none => simp
    | some p =>
      have hps2 : p < s := hplt s hs p hps
      simp [ih p (by omega)]

theorem hoistTarget_spec {st : St}
    (hpr : ∀ sid, sid < st.scopes.length → ((st.scopeOf sid).parent = none ↔ sid = 0))
    (hrg : (st.scopeOf 0).kind = .global)
    (hplt : ∀ sid, sid < st.scopes.length → ∀ p, (st.scopeOf sid).parent = some p → p < sid) :
    ∀ {rest : List Nat} {s : Nat}, StackChain st (s :: rest) →
    hoistTarget st (s :: rest) ∈ (s :: rest) ∧
    (st.scopeOf (hoistTarget st (s :: rest))).kind ≠ .block ∧
    ∀ fuel, s < fuel → hoistTarget st (s :: rest) = nearestFGAux st fuel s := by
  intro rest
  induction rest with
  | nil =>
    intro s hch
    rw [StackChain] at hch
    obtain ⟨hs, hpnone, -⟩ := hch
    simp only [List.head?] at hpnone
    have hs0 : s = 0 := (hpr s hs).mp hpnone
    subst hs0
    have hkind : (st.scopeOf 0).kind = .global := hrg
    refine ⟨?_, ?_, ?_⟩
    · rw [hoistTarget, hkind]; simp
    · rw [hoistTarget, hkind]; simp [hkind]
    · intro fuel hf
      cases fuel with
      | zero => omega
      | succ f => rw [hoistTarget, hkind, nearestFGAux, hkind]
  | cons t r ih =>
    intro s hch
    rw [StackChain] at hch
    obtain ⟨hs, hpar, hch2⟩ := hch
    simp only [List.head?] at hpar
    cases hks : (st.scopeOf s).kind with
    | block =>
      have hmain := ih hch2
      refine ⟨?_, ?_, ?_⟩
      · rw [hoistTarget, hks]; exact List.mem_cons_of_mem s hmain.1
      · rw [hoistTarget, hks]; exact hmain.2.1
      · intro fuel hf
        cases fuel with
        | zero => omega
        | succ f =>
          rw [hoistTarget, hks, nearestFGAux, hks, hpar]
          have ht : t < s := hplt s hs t hpar
          exact hmain.2.2 f (by omega)
    | global =>
      refine ⟨?_, ?_, ?_⟩
      · rw [hoistTarget, hks]; simp
      · rw [hoistTarget, hks]; simp [hks]
      · intro fuel hf
        cases fuel with
        | zero => omega
        | succ f => rw [hoistTarget, hks, nearestFGAux, hks]
    | function =>
      refine ⟨?_, ?_, ?_⟩
      · rw [hoistTarget, hks]; simp
      · rw [hoistTarget, hks]; simp [hks]
      · intro fuel hf
        cases fuel with
        | zero => omega
        | succ f => rw [hoistTarget, hks, nearestFGAux, hks]

end ScopeEngine

namespace ScopeEngine

theorem recordDeclAt_eq_some (st : St) (T : Nat) (d : Defn) (bid : Nat)
    (hfind : st.findBinding T d.name = some bid) :
    recordDeclAt st T d =
      setBind st bid { st.bindOf bid with defs := (st.bindOf bid).defs ++ [d] } := by
  unfold recordDeclAt
  rw [hfind]

theorem recordDeclAt_eq_none (st : St) (T : Nat) (d : Defn)
    (hfind : st.findBinding T d.name = none) :
    recordDeclAt st T d =
      setScope { st with bindings := st.bindings ++ [⟨d.name, T, [d], []⟩] } T
        { st.scopeOf T with bindings := (st.scopeOf T).bindings ++ [st.bindings.length] } := by
  unfold recordDeclAt
  rw [hfind]
  rfl

theorem recordDeclAt_spec (st : St) (stack : List Nat) (T : Nat) (d : Defn)
    (h : Inv st stack) (hT : T ∈ stack)
    (hds : d.declScope < st.scopes.length)
    (hvar : d.kind = .varDef →
      T = nearestFGFrom st d.declScope ∧ (st.scopeOf T).kind ≠ .block)
    (hlet : d.kind = .letOrConst → T = d.declScope) :
    Inv (recordDeclAt st T d) stack ∧ Evolves st (recordDeclAt st T d) := by
  have hTlt : T < st.scopes.length := stackChain_mem_lt h.stackChain T hT
  cases hfind : st.findBinding T d.name with
  | some bid =>
    rw [recordDeclAt_eq_some st T d bid hfind]
    have hmem : bid ∈ (st.scopeOf T).bindings := List.mem_of_find?_eq_some hfind
    have hpred := List.find?_some hfind
    have hname : (st.bindOf bid).name = d.name := by simpa using hpred
    obtain ⟨hblt, howner⟩ := h.scopeBinds T hTlt bid hmem
    set b' : BindingRec := { st.bindOf bid with defs := (st.bindOf bid).defs ++ [d] } with hb'
    set st' : St := setBind st bid b' with hst'
    have hchain : StackChain st' stack :=
      @stackChain_congr st st' stack (le_refl _) (fun s _ => rfl) h.stackChain
    have hstrat : Strat st' stack := @strat_congr st st' stack (fun s _ => rfl) h.strat
    have hfb : ∀ f n', st'.findBinding f n' = st.findBinding f n' :=
      fun f n' => findBinding_setBind st bid b' rfl f n'
    have hbind_ne : ∀ x, bid ≠ x → st'.bindOf x = st.bindOf x :=
      fun x hx => bindOf_setBind_ne st bid x b' hx
    have hbind_self : st'.bindOf bid = b' := bindOf_setBind_self st bid b' hblt
    have hnm : ∀ x, (st'.bindOf x).name = (st.bindOf x).name := by
      intro x
      by_cases hx : bid = x
      · subst hx; rw [hbind_self]
      · rw [hbind_ne x hx]
    have howns : ∀ x, (st'.bindOf x).owningScope = (st.bindOf x).owningScope := by
      intro x
      by_cases hx : bid = x
      · subst hx; rw [hbind_self]
      · rw [hbind_ne x hx]
    have hrefs : ∀ x, (st'.bindOf x).refs = (st.bindOf x).refs := by
      intro x
      by_cases hx : bid = x
      · subst hx; rw [hbind_self]
      · rw [hbind_ne x hx]
    have hblen : st'.bindings.length = st.bindings.length := setBind_length st bid b'
    have hnfg : ∀ fuel s, nearestFGAux st' fuel s = nearestFGAux st fuel s :=
      nearestFGAux_congr (fun g => rfl) (fun g => rfl)
    constructor
    · refine ⟨h.scopesNe, h.rootGlobal, h.parentLt, h.parentRoot, ?_, ?_, h.refFrom,
        h.throughLt, h.unresolvedNil, h.stackNe, hchain, h.occ, h.closedThrough,
        ?_, ?_, ?_, ?_, ?_, ?_, ?_, h.throughSorted, hstrat⟩
      · -- scopeBinds
        intro sid hs x hx
        obtain ⟨hx1, hx2⟩ := h.scopeBinds sid hs x hx
        refine ⟨by rw [hblen]; exact hx1, by rw [howns x]; exact hx2⟩
      · -- bindOwner
        intro x hx
        rw [hblen] at hx
        obtain ⟨h1, h2⟩ := h.bindOwner x hx
        exact ⟨by rw [howns x]; exact h1, by rw [howns x]; exact h2⟩
      · -- pendChain
        intro sid hs rid hrid
        exact pathMiss_congr (fun g _ => hfb g _) (fun g => rfl) (h.pendChain sid hs rid hrid)
      · -- resolvedOK
        intro rid hrid bid2 hres
        obtain ⟨h1, h2, h3, h4, h5⟩ := h.resolvedOK rid hrid bid2 hres
        refine ⟨by rw [hblen]; exact h1, by rw [hnm bid2]; exact h2, ?_, ?_, ?_⟩
        · rw [howns bid2, hfb]; exact h3
        · rw [howns bid2]; exact h4
        · rw [howns bid2]
          exact pathMiss_congr (fun g _ => hfb g _) (fun g => rfl) h5
      · -- namesNodup
        intro sid hs
        have : ((st.scopeOf sid).bindings.map (fun x => (st'.bindOf x).name)) =
            ((st.scopeOf sid).bindings.map (fun x => (st.bindOf x).name)) :=
          List.map_congr_left (fun x _ => hnm x)
        rw [show (St.scopeOf st' sid) = st.scopeOf sid from rfl, this]
        exact h.namesNodup sid hs
      · -- defsOK
        intro x hx d2 hd2
        rw [hblen] at hx
        by_cases hxb : bid = x
        · subst hxb
          rw [hbind_self] at hd2
          simp only [hb'] at hd2
          rw [List.mem_append] at hd2
          rcases hd2 with hd2 | hd2
          · obtain ⟨g1, g2, g3, g4⟩ := h.defsOK bid hblt d2 hd2
            refine ⟨by rw [hnm bid]; exact g1, g2, ?_, ?_⟩
            · intro hk
              obtain ⟨g5, g6⟩ := g3 hk
              rw [howns bid]
              refine ⟨?_, g6⟩
              rw [g5]
              show nearestFGAux st _ _ = nearestFGAux st' _ _
              rw [hnfg]
            · intro hk
              rw [howns bid]
              exact g4 hk
          · rw [List.mem_singleton] at hd2
            subst hd2
            refine ⟨by rw [hnm bid, hname], hds, ?_, ?_⟩
            · intro hk
              obtain ⟨g5, g6⟩ := hvar hk
              rw [howns bid, howner]
              refine ⟨?_, g6⟩
              rw [g5]
              show nearestFGAux st _ _ = nearestFGAux st' _ _
              rw [hnfg]
            · intro hk
              rw [howns bid, howner]
              exact hlet hk
        · rw [hbind_ne x hxb] at hd2
          obtain ⟨g1, g2, g3, g4⟩ := h.defsOK x hx d2 hd2
          refine ⟨by rw [hnm x]; exact g1, g2, ?_, ?_⟩
          · intro hk
            obtain ⟨g5, g6⟩ := g3 hk
            rw [howns x]
            refine ⟨?_, g6⟩
            rw [g5]
            show nearestFGAux st _ _ = nearestFGAux st' _ _
            rw [hnfg]
          · intro hk
            rw [howns x]
            exact g4 hk
      · -- bindRefs
        intro x hx r hr
        rw [hblen] at hx
        rw [hrefs x] at hr
        exact h.bindRefs x hx r hr
      · -- bindRefsOpen
        intro x hx hop
        rw [hblen] at hx
        rw [howns x] at hop
        rw [hrefs x]
        exact h.bindRefsOpen x hx hop
      · -- bindRefsSorted
        intro x hx
        rw [hblen] at hx
        rw [hrefs x]
        exact h.bindRefsSorted x hx
    · -- Evolves
      refine ⟨le_refl _, fun _ _ => rfl, fun _ _ => rfl, fun _ _ => growsTo_refl _,
        fun _ _ => growsTo_refl _, fun _ _ => growsTo_refl _, by rw [hblen],
        fun x _ => hnm x, fun x _ => howns x, ?_, ?_, le_refl _,
        fun _ _ => rfl, fun _ _ => rfl, fun _ _ => Or.inr rfl, growsTo_refl _⟩
      · intro x _
        by_cases hx : bid = x
        · subst hx
          rw [hbind_self]
          exact growsTo_append _ _
        · rw [hbind_ne x hx]
          exact growsTo_refl _
      · intro x _
        rw [hrefs x]
        exact growsTo_refl _
  | none =>
    rw [recordDeclAt_eq_none st T d hfind]
    have hnone : ∀ x ∈ (st.scopeOf T).bindings, ¬ ((st.bindOf x).name == d.name) = true := by
      intro x hx
      exact List.find?_eq_none.mp hfind x hx
    have hnone2 : ∀ x ∈ (st.scopeOf T).bindings, (st.bindOf x).name ≠ d.name := by
      intro x hx
      have := hnone x hx
      simpa using this
    set newb : BindingRec := ⟨d.name, T, [d], []⟩ with hnewb
    set bidN := st.bindings.length with hbidN
    set st1 : St := { st with bindings := st.bindings ++ [newb] } with hst1
    set sc' : ScopeNode :=
      { st.scopeOf T with bindings := (st.scopeOf T).bindings ++ [bidN] } with hsc'
    set st' : St := setScope st1 T sc' with hst'
    have hslen : st'.scopes.length = st.scopes.length := by
      rw [hst']; rw [setScope_length]
    have hblen : st'.bindings.length = st.bindings.length + 1 := by
      simp [hst', hst1, setScope]
    have hscope_self : st'.scopeOf T = sc' := scopeOf_setScope_self st1 T sc' hTlt
    have hscope_ne : ∀ g, g ≠ T → st'.scopeOf g = st.scopeOf g := by
      intro g hg
      exact scopeOf_setScope_ne st1 T g sc' (fun he => hg he.symm)
    have hbind_lt : ∀ x, x < st.bindings.length → st'.bindOf x = st.bindOf x := by
      intro x hx
      show st1.bindOf x = st.bindOf x
      simp only [hst1, St.bindOf]
      exact getD_append_lt _ _ _ _ hx
    have hbind_new : st'.bindOf bidN = newb := by
      show st1.bindOf bidN = newb
      simp only [hst1, St.bindOf, hbidN]
      exact getD_append_self _ _ _
    have hkind : ∀ g, (st'.scopeOf g).kind = (st.scopeOf g).kind := by
      intro g
      by_cases hg : g = T
      · subst hg; rw [hscope_self]
      · rw [hscope_ne g hg]
    have hpar : ∀ g, (st'.scopeOf g).parent = (st.scopeOf g).parent := by
      intro g
      by_cases hg : g = T
      · subst hg; rw [hscope_self]
      · rw [hscope_ne g hg]
    have hthr : ∀ g, (st'.scopeOf g).through = (st.scopeOf g).through := by
      intro g
      by_cases hg : g = T
      · subst hg; rw [hscope_self]
      · rw [hscope_ne g hg]
    have hsrefs : ∀ g, (st'.scopeOf g).refs = (st.scopeOf g).refs := by
      intro g
      by_cases hg : g = T
      · subst hg; rw [hscope_self]
      · rw [hscope_ne g hg]
    have hrefOf : ∀ rid, st'.refOf rid = st.refOf rid := fun _ => rfl
    have hrlen : st'.refs.length = st.refs.length := rfl
    have hunres : st'.unresolved = st.unresolved := rfl
    have hfb : ∀ f n', f ≠ T → st'.findBinding f n' = st.findBinding f n' := by
      intro f n' hf
      unfold St.findBinding
      rw [hscope_ne f hf]
      apply find?_congr
      intro x hx
      by_cases hfl : f < st.scopes.length
      · have hxb := (h.scopeBinds f hfl x hx).1
        rw [hbind_lt x hxb]
      · have hdef : st.scopeOf f = defaultScope := by
          unfold St.scopeOf
          exact getD_ge _ _ _ (by omega)
        rw [hdef] at hx
        simp [defaultScope] at hx
    have hth : ∀ rid, throughCount st' rid = throughCount st rid := by
      intro rid
      have h2 := throughCount_setScope st1 T sc' rid hTlt
      rw [← hst'] at h2
      have e1 : (st1.scopeOf T).through = sc'.through := rfl
      rw [e1] at h2
      have e2 : throughCount st1 rid = throughCount st rid := rfl
      omega
    have hnfg : ∀ fuel s, nearestFGAux st' fuel s = nearestFGAux st fuel s :=
      nearestFGAux_congr hkind hpar
    constructor
    · refine ⟨?_, ?_, ?_, ?_, ?_, ?_, ?_, ?_, ?_, h.stackNe, ?_, ?_, ?_, ?_, ?_, ?_, ?_,
        ?_, ?_, ?_, ?_, ?_⟩
      · -- scopesNe
        intro hc
        exact h.scopesNe (by have := hslen; rw [hc] at this; simpa using (List.length_eq_zero.mp this.symm))
      · -- rootGlobal
        rw [hkind 0]; exact h.rootGlobal
      · -- parentLt
        intro sid hs p hp
        rw [hslen] at hs
        rw [hpar sid] at hp
        exact h.parentLt sid hs p hp
      · -- parentRoot
        intro sid hs
        rw [hslen] at hs
        rw [hpar sid]
        exact h.parentRoot sid hs
      · -- scopeBinds
        intro sid hs x hx
        rw [hslen] at hs
        by_cases hsT : sid = T
        · subst hsT
          rw [hscope_self] at hx
          simp only [hsc'] at hx
          rw [List.mem_append] at hx
          rcases hx with hx | hx
          · obtain ⟨h1, h2⟩ := h.scopeBinds sid hs x hx
            exact ⟨by omega, by rw [hbind_lt x h1]; exact h2⟩
          · rw [List.mem_singleton] at hx
            subst hx
            exact ⟨by omega, by rw [hbind_new]⟩
        · rw [hscope_ne sid hsT] at hx
          obtain ⟨h1, h2⟩ := h.scopeBinds sid hs x hx
          exact ⟨by omega, by rw [hbind_lt x h1]; exact h2⟩
      · -- bindOwner
        intro x hx
        rw [hblen] at hx
        by_cases hxn : x = st.bindings.length
        · subst hxn
          rw [hbind_new]
          refine ⟨by rw [hslen]; exact hTlt, ?_⟩
          show st.bindings.length ∈ (st'.scopeOf T).bindings
          rw [hscope_self]
          simp [hsc', hbidN]
        · have hx2 : x < st.bindings.length := by omega
          rw [hbind_lt x hx2]
          obtain ⟨h1, h2⟩ := h.bindOwner x hx2
          refine ⟨by rw [hslen]; exact h1, ?_⟩
          by_cases hoT : (st.bindOf x).owningScope = T
          · rw [hoT, hscope_self]
            simp only [hsc', List.mem_append]
            left
            rw [← hoT]
            exact h2
          · rw [hscope_ne _ hoT]
            exact h2
      · -- refFrom
        intro rid hrid
        rw [hrefOf rid, hslen]
        exact h.refFrom rid hrid
      · -- throughLt
        intro sid hs rid hrid
        rw [hslen] at hs
        rw [hthr sid] at hrid
        exact h.throughLt sid hs rid hrid
      · -- unresolvedNil
        rw [hunres]; exact h.unresolvedNil
      · -- stackChain
        exact stackChain_congr (by omega) (fun s _ => hpar s) h.stackChain
      · -- occ
        intro rid hrid
        rw [hrefOf rid, hth rid]
        exact h.occ rid hrid
      · -- closedThrough
        intro sid hs hnot
        rw [hslen] at hs
        rw [hthr sid]
        exact h.closedThrough sid hs hnot
      · -- pendChain
        intro sid hs rid hrid
        rw [hslen] at hs
        rw [hthr sid] at hrid
        rw [hrefOf rid]
        refine pathMiss_congr ?_ hpar (h.pendChain sid hs rid hrid)
        intro g hg
        exact hfb g _ (fun he => hg (he ▸ hT))
      · -- resolvedOK
        intro rid hrid bid2 hres
        rw [hrefOf rid] at hres ⊢
        obtain ⟨h1, h2, h3, h4, h5⟩ := h.resolvedOK rid hrid bid2 hres
        have hown_ne : (st.bindOf bid2).owningScope ≠ T := fun he => h4 (he ▸ hT)
        refine ⟨by omega, by rw [hbind_lt bid2 h1]; exact h2, ?_, ?_, ?_⟩
        · rw [hbind_lt bid2 h1, hfb _ _ hown_ne]
          exact h3
        · rw [hbind_lt bid2 h1]
          exact h4
        · rw [hbind_lt bid2 h1]
          refine pathMiss_congr ?_ hpar h5
          intro g hg
          exact hfb g _ (fun he => hg (he ▸ hT))
      · -- namesNodup
        intro sid hs
        rw [hslen] at hs
        by_cases hsT : sid = T
        · subst hsT
          rw [hscope_self]
          simp only [hsc', List.map_append]
          have e1 : ((st.scopeOf sid).bindings.map (fun x => (st'.bindOf x).name)) =
              ((st.scopeOf sid).bindings.map (fun x => (st.bindOf x).name)) := by
            apply List.map_congr_left
            intro x hx
            rw [hbind_lt x (h.scopeBinds sid hs x hx).1]
          rw [e1]
          rw [List.nodup_append]
          refine ⟨h.namesNodup sid hs, by simp, ?_⟩
          intro a ha hb
          simp only [hbidN, List.map_singleton, List.mem_singleton] at hb
          rw [hbind_new] at hb
          rw [List.mem_map] at ha
          obtain ⟨x, hx1, hx2⟩ := ha
          exact hnone2 x hx1 (by rw [hx2, hb])
        · rw [hscope_ne sid hsT]
          have e1 : ((st.scopeOf sid).bindings.map (fun x => (st'.bindOf x).name)) =
              ((st.scopeOf sid).bindings.map (fun x => (st.bindOf x).name)) := by
            apply List.map_congr_left
            intro x hx
            rw [hbind_lt x (h.scopeBinds sid hs x hx).1]
          rw [e1]
          exact h.namesNodup sid hs
      · -- defsOK
        intro x hx d2 hd2
        rw [hblen] at hx
        by_cases hxn : x = st.bindings.length
        · subst hxn
          rw [hbind_new] at hd2 ⊢
          simp only [hnewb, List.mem_singleton] at hd2
          subst hd2
          refine ⟨rfl, by rw [hslen]; exact hds, ?_, ?_⟩
          · intro hk
            obtain ⟨g5, g6⟩ := hvar hk
            simp only [hnewb]
            refine ⟨?_, ?_⟩
            · rw [g5]
              show nearestFGAux st _ _ = nearestFGAux st' _ _
              rw [hnfg]
            · rw [hkind T]
              exact g6
          · intro hk
            simp only [hnewb]
            exact hlet hk
        · have hx2 : x < st.bindings.length := by omega
          rw [hbind_lt x hx2] at hd2 ⊢
          obtain ⟨g1, g2, g3, g4⟩ := h.defsOK x hx2 d2 hd2
          refine ⟨g1, by omega, ?_, ?_⟩
          · intro hk
            obtain ⟨g5, g6⟩ := g3 hk
            refine ⟨?_, ?_⟩
            · rw [g5]
              show nearestFGAux st _ _ = nearestFGAux st' _ _
              rw [hnfg]
            · rw [hkind]
              exact g6
          · exact g4
      · -- bindRefs
        intro x hx r hr
        rw [hblen] at hx
        by_cases hxn : x = st.bindings.length
        · subst hxn
          rw [hbind_new] at hr
          simp [hnewb] at hr
        · have hx2 : x < st.bindings.length := by omega
          rw [hbind_lt x hx2] at hr
          obtain ⟨h1, h2⟩ := h.bindRefs x hx2 r hr
          exact ⟨h1, by rw [hrefOf r]; exact h2⟩
      · -- bindRefsOpen
        intro x hx hop
        rw [hblen] at hx
        by_cases hxn : x = st.bindings.length
        · subst hxn
          rw [hbind_new]
        · have hx2 : x < st.bindings.length := by omega
          rw [hbind_lt x hx2] at hop ⊢
          exact h.bindRefsOpen x hx2 hop
      · -- bindRefsSorted
        intro x hx
        rw [hblen] at hx
        by_cases hxn : x = st.bindings.length
        · subst hxn
          rw [hbind_new]
          exact List.Pairwise.nil
        · have hx2 : x < st.bindings.length := by omega
          rw [hbind_lt x hx2]
          exact h.bindRefsSorted x hx2
      · -- throughSorted
        intro sid hs
        rw [hslen] at hs
        rw [hthr sid]
        exact h.throughSorted sid hs
      · -- strat
        exact strat_congr (fun s _ => hthr s) h.strat
    · -- Evolves
      refine ⟨by omega, fun g _ => hkind g, fun g _ => hpar g, ?_, ?_, ?_, by omega,
        fun x hx => by rw [hbind_lt x hx], fun x hx => by rw [hbind_lt x hx],
        fun x hx => by rw [hbind_lt x hx]; exact growsTo_refl _,
        fun x hx => by rw [hbind_lt x hx]; exact growsTo_refl _,
        le_refl _, fun r _ => by rw [hrefOf r], fun r _ => by rw [hrefOf r],
        fun r _ => Or.inr (by rw [hrefOf r]), by rw [hunres]; exact growsTo_refl _⟩
      · intro g _
        by_cases hg : g = T
        · subst hg
          rw [hscope_self]
          exact growsTo_refl _
        · rw [hscope_ne g hg]
          exact growsTo_refl _
      · intro g _
        by_cases hg : g = T
        · subst hg
          rw [hscope_self]
          exact growsTo_append _ _
        · rw [hscope_ne g hg]
          exact growsTo_refl _
      · intro g _
        rw [hsrefs g]
        exact growsTo_refl _

end ScopeEngine

namespace ScopeEngine

theorem throughCount_zero_of_ge (st : St)
    (hth : ∀ sid, sid < st.scopes.length → ∀ r ∈ (st.scopeOf sid).through,
      r < st.refs.length)
    (rid : Nat) (h : st.refs.length ≤ rid) : throughCount st rid = 0 := by
  apply List.sum_eq_zero
  intro x hx
  rw [List.mem_map] at hx
  obtain ⟨sc, hsc, rfl⟩ := hx
  rw [List.mem_iff_getElem] at hsc
  obtain ⟨i, hi, rfl⟩ := hsc
  rw [List.count_eq_zero]
  intro hmem
  have : st.scopeOf i = st.scopes[i] := by
    simp only [St.scopeOf, List.getD, List.get?_eq_getElem?, List.getElem?_eq_getElem hi,
      Option.getD_some]
  have := hth i hi rid (by rw [this]; exact hmem)
  omega

theorem recordDecl_spec (st : St) (stack : List Nat) (k : DefKind) (n : String)
    (h : Inv st stack) :
    Inv (recordDecl st stack k n) stack ∧ Evolves st (recordDecl st stack k n) := by
  obtain ⟨s, rest, rfl⟩ : ∃ s rest, stack = s :: rest := by
    cases stack with
    | nil => exact absurd rfl h.stackNe
    | cons s rest => exact ⟨s, rest, rfl⟩
  have hs : s < st.scopes.length := stackChain_mem_lt h.stackChain s (by simp)
  unfold recordDecl
  cases k with
  | varDef =>
    have hspec := hoistTarget_spec h.parentRoot h.rootGlobal h.parentLt h.stackChain
    refine recordDeclAt_spec st (s :: rest) (hoistTarget st (s :: rest))
      ⟨.varDef, n, curScope (s :: rest)⟩ h hspec.1 ?_ ?_ ?_
    · rw [curScope_cons]; exact hs
    · intro _
      refine ⟨?_, hspec.2.1⟩
      rw [curScope_cons, nearestFGFrom]
      exact hspec.2.2 (s + 1) (by omega)
    · intro hk
      exact absurd hk (by simp)
  | letOrConst =>
    refine recordDeclAt_spec st (s :: rest) (curScope (s :: rest))
      ⟨.letOrConst, n, curScope (s :: rest)⟩ h (by rw [curScope_cons]; simp) ?_ ?_ ?_
    · rw [curScope_cons]; exact hs
    · intro hk
      exact absurd hk (by simp)
    · intro _
      rfl

theorem addRef_spec (st : St) (stack : List Nat) (n : String) (h : Inv st stack) :
    Inv (addRef st stack n) stack ∧ Evolves st (addRef st stack n) := by
  obtain ⟨s, rest, rfl⟩ : ∃ s rest, stack = s :: rest := by
    cases stack with
    | nil => exact absurd rfl h.stackNe
    | cons s rest => exact ⟨s, rest, rfl⟩
  have hs : s < st.scopes.length := stackChain_mem_lt h.stackChain s (by simp)
  have hsrest : s ∉ rest := stackChain_notMem_tail h.parentLt h.stackChain
  unfold addRef
  rw [curScope_cons]
  set rid := st.refs.length with hrid
  set newr : RefRec := ⟨n, s, none⟩ with hnewr
  set st1 : St := { st with refs := st.refs ++ [newr] } with hst1
  set sc2 : ScopeNode :=
    { st1.scopeOf s with
      refs := (st1.scopeOf s).refs ++ [rid]
      through := (st1.scopeOf s).through ++ [rid] } with hsc2
  set st' : St := setScope st1 s sc2 with hst'
  have hslen : st'.scopes.length = st.scopes.length := by rw [hst', setScope_length]
  have hrlen : st'.refs.length = st.refs.length + 1 := by simp [hst', hst1, setScope]
  have hblen : st'.bindings.length = st.bindings.length := rfl
  have hscope_self : st'.scopeOf s = sc2 := scopeOf_setScope_self st1 s sc2 hs
  have hscope_ne : ∀ g, g ≠ s → st'.scopeOf g = st.scopeOf g := by
    intro g hg
    exact scopeOf_setScope_ne st1 s g sc2 (fun he => hg he.symm)
  have hbindOf : ∀ x, st'.bindOf x = st.bindOf x := fun _ => rfl
  have hrefOf_lt : ∀ x, x < st.refs.length → st'.refOf x = st.refOf x := by
    intro x hx
    show st1.refOf x = st.refOf x
    simp only [hst1, St.refOf]
    exact getD_append_lt _ _ _ _ hx
  have hrefOf_new : st'.refOf rid = newr := by
    show st1.refOf rid = newr
    simp only [hst1, St.refOf, hrid]
    exact getD_append_self _ _ _
  have hkind : ∀ g, (st'.scopeOf g).kind = (st.scopeOf g).kind := by
    intro g
    by_cases hg : g = s
    · subst hg; rw [hscope_self]; rfl
    · rw [hscope_ne g hg]
  have hpar : ∀ g, (st'.scopeOf g).parent = (st.scopeOf g).parent := by
    intro g
    by_cases hg : g = s
    · subst hg; rw [hscope_self]; rfl
    · rw [hscope_ne g hg]
  have hbinds : ∀ g, (st'.scopeOf g).bindings = (st.scopeOf g).bindings := by
    intro g
    by_cases hg : g = s
    · subst hg; rw [hscope_self]; rfl
    · rw [hscope_ne g hg]
  have hthr_ne : ∀ g, g ≠ s → (st'.scopeOf g).through = (st.scopeOf g).through := by
    intro g hg
    rw [hscope_ne g hg]
  have hthr_s : (st'.scopeOf s).through = (st.scopeOf s).through ++ [rid] := by
    rw [hscope_self]
    rfl
  have hfb : ∀ f n', st'.findBinding f n' = st.findBinding f n' := by
    intro f n'
    have e1 : st'.findBinding f n' = st1.findBinding f n' :=
      findBinding_setScope st1 s sc2 f n' rfl
    rw [e1]
    rfl
  have hold : ∀ sid, sid < st.scopes.length → ∀ r ∈ (st.scopeOf sid).through,
      r < st.refs.length := h.throughLt
  have htc0 : throughCount st rid = 0 := throughCount_zero_of_ge st hold rid (le_refl _)
  have hthN : throughCount st' rid = throughCount st rid + 1 := by
    have h2 := throughCount_setScope st1 s sc2 rid hs
    rw [← hst'] at h2
    have e2 : throughCount st1 rid = throughCount st rid := rfl
    have e3 : (st1.scopeOf s).through = (st.scopeOf s).through := rfl
    rw [e3] at h2
    have e4 : sc2.through.count rid = (st.scopeOf s).through.count rid + 1 := by
      show ((st1.scopeOf s).through ++ [rid]).count rid = _
      rw [e3, List.count_append]
      simp
    omega
  have hthO : ∀ x, x ≠ rid → throughCount st' x = throughCount st x := by
    intro x hx
    have h2 := throughCount_setScope st1 s sc2 x hs
    rw [← hst'] at h2
    have e2 : throughCount st1 x = throughCount st x := rfl
    have e3 : (st1.scopeOf s).through = (st.scopeOf s).through := rfl
    rw [e3] at h2
    have e4 : sc2.through.count x = (st.scopeOf s).through.count x := by
      show ((st1.scopeOf s).through ++ [rid]).count x = _
      rw [e3, List.count_append]
      have e5 : List.count x [rid] = 0 := List.count_eq_zero.mpr (by simp [hx])
      rw [e5]
      omega
    omega
  constructor
  · refine ⟨?_, ?_, ?_, ?_, ?_, ?_, ?_, ?_, ?_, h.stackNe, ?_, ?_, ?_, ?_, ?_, ?_, ?_,
      ?_, ?_, ?_, ?_, ?_⟩
    · -- scopesNe
      intro hc
      exact h.scopesNe (by
        have := hslen
        rw [hc] at this
        simpa using (List.length_eq_zero.mp this.symm))
    · -- rootGlobal
      rw [hkind 0]; exact h.rootGlobal
    · -- parentLt
      intro sid hsl p hp
      rw [hslen] at hsl
      rw [hpar sid] at hp
      exact h.parentLt sid hsl p hp
    · -- parentRoot
      intro sid hsl
      rw [hslen] at hsl
      rw [hpar sid]
      exact h.parentRoot sid hsl
    · -- scopeBinds
      intro sid hsl x hx
      rw [hslen] at hsl
      rw [hbinds sid] at hx
      obtain ⟨h1, h2⟩ := h.scopeBinds sid hsl x hx
      exact ⟨h1, by rw [hbindOf x]; exact h2⟩
    · -- bindOwner
      intro x hx
      obtain ⟨h1, h2⟩ := h.bindOwner x hx
      rw [hbindOf x]
      refine ⟨by omega, ?_⟩
      rw [hbinds _]
      exact h2
    · -- refFrom
      intro r hr
      rw [hrlen] at hr
      by_cases hrn : r = rid
      · subst hrn
        rw [hrefOf_new]
        simp only [hnewr]
        omega
      · have hr2 : r < st.refs.length := by
          rw [hrid] at hrn
          omega
        rw [hrefOf_lt r hr2, hslen]
        exact h.refFrom r hr2
    · -- throughLt
      intro sid hsl r hr
      rw [hslen] at hsl
      rw [hrlen]
      by_cases hgs : sid = s
      · subst hgs
        rw [hthr_s] at hr
        rw [List.mem_append] at hr
        rcases hr with hr | hr
        · have := h.throughLt sid hsl r hr
          omega
        · rw [List.mem_singleton] at hr
          omega
      · rw [hthr_ne sid hgs] at hr
        have := h.throughLt sid hsl r hr
        omega
    · -- unresolvedNil
      exact h.unresolvedNil
    · -- stackChain
      exact @stackChain_congr st st' (s :: rest) (by omega) (fun g _ => hpar g) h.stackChain
    · -- occ
      intro r hr
      rw [hrlen] at hr
      by_cases hrn : r = rid
      · subst hrn
        rw [hrefOf_new, hthN, htc0]
        simp [hnewr]
      · have hr2 : r < st.refs.length := by
          rw [hrid] at hrn
          omega
        rw [hrefOf_lt r hr2, hthO r hrn]
        exact h.occ r hr2
    · -- closedThrough
      intro sid hsl hnot
      rw [hslen] at hsl
      have hgs : sid ≠ s := fun he => hnot (by simp [he])
      rw [hthr_ne sid hgs]
      exact h.closedThrough sid hsl hnot
    · -- pendChain
      intro sid hsl r hr
      rw [hslen] at hsl
      by_cases hgs : sid = s
      · subst hgs
        rw [hthr_s, List.mem_append] at hr
        rcases hr with hr | hr
        · have hrl : r < st.refs.length := h.throughLt sid hsl r hr
          rw [hrefOf_lt r hrl]
          refine pathMiss_congr (fun g _ => hfb g _) hpar (h.pendChain sid hsl r hr)
        · rw [List.mem_singleton] at hr
          subst hr
          rw [hrefOf_new]
          exact PathMiss.refl sid
      · rw [hthr_ne sid hgs] at hr
        have hrl : r < st.refs.length := h.throughLt sid hsl r hr
        rw [hrefOf_lt r hrl]
        refine pathMiss_congr (fun g _ => hfb g _) hpar (h.pendChain sid hsl r hr)
    · -- resolvedOK
      intro r hr bid hres
      rw [hrlen] at hr
      by_cases hrn : r = rid
      · subst hrn
        rw [hrefOf_new] at hres
        simp [hnewr] at hres
      · have hr2 : r < st.refs.length := by
          rw [hrid] at hrn
          omega
        rw [hrefOf_lt r hr2] at hres ⊢
        obtain ⟨h1, h2, h3, h4, h5⟩ := h.resolvedOK r hr2 bid hres
        refine ⟨h1, by rw [hbindOf bid]; exact h2, ?_, ?_, ?_⟩
        · rw [hbindOf bid, hfb]
          exact h3
        · rw [hbindOf bid]
          exact h4
        · rw [hbindOf bid]
          exact pathMiss_congr (fun g _ => hfb g _) hpar h5
    · -- namesNodup
      intro sid hsl
      rw [hslen] at hsl
      rw [hbinds sid]
      have e1 : ((st.scopeOf sid).bindings.map (fun x => (st'.bindOf x).name)) =
          ((st.scopeOf sid).bindings.map (fun x => (st.bindOf x).name)) :=
        List.map_congr_left (fun x _ => by rw [hbindOf x])
      rw [e1]
      exact h.namesNodup sid hsl
    · -- defsOK
      intro x hx d2 hd2
      rw [hbindOf x] at hd2 ⊢
      obtain ⟨g1, g2, g3, g4⟩ := h.defsOK x hx d2 hd2
      refine ⟨g1, by omega, ?_, g4⟩
      intro hk
      obtain ⟨g5, g6⟩ := g3 hk
      refine ⟨?_, by rw [hkind]; exact g6⟩
      rw [g5]
      show nearestFGAux st _ _ = nearestFGAux st' _ _
      rw [nearestFGAux_congr hkind hpar]
    · -- bindRefs
      intro x hx r hr
      rw [hbindOf x] at hr
      obtain ⟨h1, h2⟩ := h.bindRefs x hx r hr
      rw [hrlen]
      exact ⟨by omega, by rw [hrefOf_lt r h1]; exact h2⟩
    · -- bindRefsOpen
      intro x hx hop
      rw [hbindOf x] at hop ⊢
      exact h.bindRefsOpen x hx hop
    · -- bindRefsSorted
      intro x hx
      rw [hbindOf x]
      exact h.bindRefsSorted x hx
    · -- throughSorted
      intro sid hsl
      rw [hslen] at hsl
      by_cases hgs : sid = s
      · subst hgs
        rw [hthr_s]
        rw [List.pairwise_append]
        refine ⟨h.throughSorted sid hsl, by simp, ?_⟩
        intro a ha b hb
        rw [List.mem_singleton] at hb
        subst hb
        exact h.throughLt sid hsl a ha
      · rw [hthr_ne sid hgs]
        exact h.throughSorted sid hsl
    · -- strat
      show Strat st' (s :: rest)
      rw [Strat]
      constructor
      · intro p hp x hx y hy
        have hps : p ≠ s := fun he => hsrest (he ▸ hp)
        rw [hthr_ne p hps] at hx
        rw [hthr_s, List.mem_append] at hy
        have hplt2 : p < st.scopes.length := stackChain_mem_lt h.stackChain p (by simp [hp])
        rcases hy with hy | hy
        · have hh := h.strat
          rw [Strat] at hh
          exact hh.1 p hp x hx y hy
        · rw [List.mem_singleton] at hy
          subst hy
          exact h.throughLt p hplt2 x hx
      · have hh := h.strat
        rw [Strat] at hh
        refine strat_congr ?_ hh.2
        intro g hg
        have hgs : g ≠ s := fun he => hsrest (he ▸ hg)
        exact hthr_ne g hgs
  · -- Evolves
    refine ⟨by omega, fun g _ => hkind g, fun g _ => hpar g, ?_, ?_, ?_, le_refl _,
      fun x _ => by rw [hbindOf x], fun x _ => by rw [hbindOf x],
      fun x _ => by rw [hbindOf x]; exact growsTo_refl _,
      fun x _ => by rw [hbindOf x]; exact growsTo_refl _,
      by omega, fun r hr => by rw [hrefOf_lt r hr], fun r hr => by rw [hrefOf_lt r hr],
      fun r hr => Or.inr (by rw [hrefOf_lt r hr]), growsTo_refl _⟩
    · intro g _
      by_cases hg : g = s
      · subst hg
        rw [hscope_self]
        exact growsTo_refl _
      · rw [hscope_ne g hg]
        exact growsTo_refl _
    · intro g _
      rw [hbinds g]
      exact growsTo_refl _
    · intro g _
      by_cases hg : g = s
      · subst hg
        rw [hscope_self]
        exact growsTo_append _ _
      · rw [hscope_ne g hg]
        exact growsTo_refl _

end ScopeEngine

namespace ScopeEngine

theorem pushScope_spec (st : St) (stack : List Nat) (k : ScopeKind) (h : Inv st stack) :
    Inv (pushScope st (some (curScope stack)) k).1
      ((pushScope st (some (curScope stack)) k).2 :: stack) ∧
    Evolves st (pushScope st (some (curScope stack)) k).1 ∧
    (pushScope st (some (curScope stack)) k).2 = st.scopes.length := by
  obtain ⟨s, rest, rfl⟩ : ∃ s rest, stack = s :: rest := by
    cases stack with
    | nil => exact absurd rfl h.stackNe
    | cons s rest => exact ⟨s, rest, rfl⟩
  have hs : s < st.scopes.length := stackChain_mem_lt h.stackChain s (by simp)
  have hlen1 : 1 ≤ st.scopes.length := by omega
  rw [curScope_cons]
  unfold pushScope
  set L := st.scopes.length with hL
  set newNode : ScopeNode := ⟨k, some s, [], [], [], []⟩ with hnew
  set stA : St := { st with scopes := st.scopes ++ [newNode] } with hstA
  set sc3 : ScopeNode :=
    { stA.scopeOf s with children := (stA.scopeOf s).children ++ [L] } with hsc3
  set st' : St := setScope stA s sc3 with hst'
  have hgoal : (pushScope st (some s) k).1 = st' ∧ (pushScope st (some s) k).2 = L := by
    constructor <;> rfl
  have hslen : st'.scopes.length = L + 1 := by
    rw [hst', setScope_length]
    simp [hstA, hL]
  have hsAs : stA.scopeOf s = st.scopeOf s := by
    show (st.scopes ++ [newNode]).getD s defaultScope = _
    exact getD_append_lt _ _ _ _ hs
  have hscope_self : st'.scopeOf s = sc3 := by
    refine scopeOf_setScope_self stA s sc3 ?_
    show s < (st.scopes ++ [newNode]).length
    simp
    omega
  have hscope_new : st'.scopeOf L = newNode := by
    rw [hst']
    rw [scopeOf_setScope_ne stA s L sc3 (by omega)]
    show (st.scopes ++ [newNode]).getD L defaultScope = newNode
    exact getD_append_self _ _ _
  have hscope_lt : ∀ g, g < L → g ≠ s → st'.scopeOf g = st.scopeOf g := by
    intro g hg hgs
    rw [hst', scopeOf_setScope_ne stA s g sc3 (fun he => hgs he.symm)]
    show (st.scopes ++ [newNode]).getD g defaultScope = _
    exact getD_append_lt _ _ _ _ hg
  have hkind : ∀ g, g < L → (st'.scopeOf g).kind = (st.scopeOf g).kind := by
    intro g hg
    by_cases hgs : g = s
    · subst hgs; rw [hscope_self, hsc3, hsAs]
    · rw [hscope_lt g hg hgs]
  have hpar : ∀ g, g < L → (st'.scopeOf g).parent = (st.scopeOf g).parent := by
    intro g hg
    by_cases hgs : g = s
    · subst hgs; rw [hscope_self, hsc3, hsAs]
    · rw [hscope_lt g hg hgs]
  have hbinds : ∀ g, g < L → (st'.scopeOf g).bindings = (st.scopeOf g).bindings := by
    intro g hg
    by_cases hgs : g = s
    · subst hgs; rw [hscope_self, hsc3, hsAs]
    · rw [hscope_lt g hg hgs]
  have hthr : ∀ g, g < L → (st'.scopeOf g).through = (st.scopeOf g).through := by
    intro g hg
    by_cases hgs : g = s
    · subst hgs; rw [hscope_self, hsc3, hsAs]
    · rw [hscope_lt g hg hgs]
  have hsrefs : ∀ g, g < L → (st'.scopeOf g).refs = (st.scopeOf g).refs := by
    intro g hg
    by_cases hgs : g = s
    · subst hgs; rw [hscope_self, hsc3, hsAs]
    · rw [hscope_lt g hg hgs]
  have hbindOf : ∀ x, st'.bindOf x = st.bindOf x := fun _ => rfl
  have hrefOf : ∀ x, st'.refOf x = st.refOf x := fun _ => rfl
  have hblen : st'.bindings.length = st.bindings.length := rfl
  have hrlen : st'.refs.length = st.refs.length := rfl
  have hunres : st'.unresolved = st.unresolved := rfl
  have hfb : ∀ f n', f < L → st'.findBinding f n' = st.findBinding f n' := by
    intro f n' hf
    unfold St.findBinding
    rw [hbinds f hf]
    apply find?_congr
    intro x _
    rw [hbindOf x]
  have hfbnew : ∀ n', st'.findBinding L n' = none := by
    intro n'
    unfold St.findBinding
    rw [hscope_new]
    rfl
  have htc : ∀ x, throughCount st' x = throughCount st x := by
    intro x
    have h2 := throughCount_setScope stA s sc3 x (by show s < (st.scopes ++ [newNode]).length; simp; omega)
    rw [← hst'] at h2
    have e2 : throughCount stA x = throughCount st x := by
      rw [hstA, throughCount_appendScope]
      simp [hnew]
    have e3 : sc3.through = (stA.scopeOf s).through := rfl
    rw [e3] at h2
    omega
  have hnfg : ∀ fuel g, g < L → nearestFGAux st' fuel g = nearestFGAux st fuel g := by
    intro fuel g hg
    exact nearestFGAux_congr_lt L hkind hpar h.parentLt fuel g hg
  show Inv st' (L :: s :: rest) ∧ Evolves st st' ∧ L = st.scopes.length
  refine ⟨?_, ?_, rfl⟩
  · refine ⟨?_, ?_, ?_, ?_, ?_, ?_, ?_, ?_, ?_, by simp, ?_, ?_, ?_, ?_, ?_, ?_, ?_,
      ?_, ?_, ?_, ?_, ?_⟩
    · -- scopesNe
      intro hc
      have := hslen
      rw [hc] at this
      simp at this
    · -- rootGlobal
      rw [hkind 0 (by omega)]
      exact h.rootGlobal
    · -- parentLt
      intro sid hsl p hp
      rw [hslen] at hsl
      by_cases hsn : sid = L
      · subst hsn
        rw [hscope_new] at hp
        simp [hnew] at hp
        omega
      · have hsl2 : sid < L := by omega
        rw [hpar sid hsl2] at hp
        exact h.parentLt sid hsl2 p hp
    · -- parentRoot
      intro sid hsl
      rw [hslen] at hsl
      by_cases hsn : sid = L
      · subst hsn
        rw [hscope_new]
        simp [hnew]
        omega
      · have hsl2 : sid < L := by omega
        rw [hpar sid hsl2]
        exact h.parentRoot sid hsl2
    · -- scopeBinds
      intro sid hsl x hx
      rw [hslen] at hsl
      by_cases hsn : sid = L
      · subst hsn
        rw [hscope_new] at hx
        simp [hnew] at hx
      · have hsl2 : sid < L := by omega
        rw [hbinds sid hsl2] at hx
        obtain ⟨h1, h2⟩ := h.scopeBinds sid hsl2 x hx
        exact ⟨h1, by rw [hbindOf x]; exact h2⟩
    · -- bindOwner
      intro x hx
      obtain ⟨h1, h2⟩ := h.bindOwner x hx
      rw [hbindOf x]
      refine ⟨by omega, ?_⟩
      rw [hbinds _ h1]
      exact h2
    · -- refFrom
      intro r hr
      rw [hrefOf r, hslen]
      have := h.refFrom r hr
      omega
    · -- throughLt
      intro sid hsl r hr
      rw [hslen] at hsl
      by_cases hsn : sid = L
      · subst hsn
        rw [hscope_new] at hr
        simp [hnew] at hr
      · have hsl2 : sid < L := by omega
        rw [hthr sid hsl2] at hr
        exact h.throughLt sid hsl2 r hr
    · -- unresolvedNil
      rw [hunres]; exact h.unresolvedNil
    · -- stackChain
      show StackChain st' (L :: s :: rest)
      rw [StackChain]
      refine ⟨by omega, ?_, ?_⟩
      · rw [hscope_new]
        rfl
      · exact stackChain_congr (by omega) (fun g hg => hpar g hg) h.stackChain
    · -- occ
      intro r hr
      rw [hrefOf r, htc r]
      exact h.occ r hr
    · -- closedThrough
      intro sid hsl hnot
      rw [hslen] at hsl
      by_cases hsn : sid = L
      · subst hsn
        rw [hscope_new]
      · have hsl2 : sid < L := by omega
        rw [hthr sid hsl2]
        refine h.closedThrough sid hsl2 ?_
        intro hc
        exact hnot (by simp [hc])
    · -- pendChain
      intro sid hsl r hr
      rw [hslen] at hsl
      by_cases hsn : sid = L
      · subst hsn
        rw [hscope_new] at hr
        simp [hnew] at hr
      · have hsl2 : sid < L := by omega
        rw [hthr sid hsl2] at hr
        have hrl : r < st.refs.length := h.throughLt sid hsl2 r hr
        rw [hrefOf r]
        have hfrom : (st.refOf r).fromScope < L := h.refFrom r hrl
        have step1 := h.pendChain sid hsl2 r hr
        have step2 : PathMiss st (L :: s :: rest) (st.refOf r).name (st.refOf r).fromScope sid :=
          pathMiss_stackCons hfrom (le_refl _) h.parentLt step1
        exact pathMiss_congr_lt L (fun g hg hgn => hfb g _ hg) hpar h.parentLt hfrom step2
    · -- resolvedOK
      intro r hr bid hres
      rw [hrefOf r] at hres ⊢
      obtain ⟨h1, h2, h3, h4, h5⟩ := h.resolvedOK r hr bid hres
      have howlt : (st.bindOf bid).owningScope < L := (h.bindOwner bid h1).1
      have hfrom : (st.refOf r).fromScope < L := h.refFrom r hr
      refine ⟨h1, by rw [hbindOf bid]; exact h2, ?_, ?_, ?_⟩
      · rw [hbindOf bid, hfb _ _ howlt]
        exact h3
      · rw [hbindOf bid]
        intro hc
        rcases List.mem_cons.mp hc with hc | hc
        · omega
        · exact h4 hc
      · rw [hbindOf bid]
        have step2 : PathMiss st (L :: s :: rest) (st.refOf r).name (st.refOf r).fromScope
            (st.bindOf bid).owningScope :=
          pathMiss_stackCons hfrom (le_refl _) h.parentLt h5
        exact pathMiss_congr_lt L (fun g hg hgn => hfb g _ hg) hpar h.parentLt hfrom step2
    · -- namesNodup
      intro sid hsl
      rw [hslen] at hsl
      by_cases hsn : sid = L
      · subst hsn
        rw [hscope_new]
        simp [hnew]
      · have hsl2 : sid < L := by omega
        rw [hbinds sid hsl2]
        have e1 : ((st.scopeOf sid).bindings.map (fun x => (st'.bindOf x).name)) =
            ((st.scopeOf sid).bindings.map (fun x => (st.bindOf x).name)) :=
          List.map_congr_left (fun x _ => by rw [hbindOf x])
        rw [e1]
        exact h.namesNodup sid hsl2
    · -- defsOK
      intro x hx d2 hd2
      rw [hbindOf x] at hd2 ⊢
      obtain ⟨g1, g2, g3, g4⟩ := h.defsOK x hx d2 hd2
      refine ⟨g1, by rw [hslen]; omega, ?_, g4⟩
      intro hk
      obtain ⟨g5, g6⟩ := g3 hk
      have howlt : (st.bindOf x).owningScope < L := (h.bindOwner x hx).1
      refine ⟨?_, by rw [hkind _ howlt]; exact g6⟩
      rw [g5]
      show nearestFGAux st _ _ = nearestFGAux st' _ _
      rw [hnfg _ _ g2]
    · -- bindRefs
      intro x hx r hr
      rw [hbindOf x] at hr
      obtain ⟨h1, h2⟩ := h.bindRefs x hx r hr
      exact ⟨h1, by rw [hrefOf r]; exact h2⟩
    · -- bindRefsOpen
      intro x hx hop
      rw [hbindOf x] at hop ⊢
      have howlt : (st.bindOf x).owningScope < L := (h.bindOwner x hx).1
      refine h.bindRefsOpen x hx ?_
      rcases List.mem_cons.mp hop with hc | hc
      · omega
      · exact hc
    · -- bindRefsSorted
      intro x hx
      rw [hbindOf x]
      exact h.bindRefsSorted x hx
    · -- throughSorted
      intro sid hsl
      rw [hslen] at hsl
      by_cases hsn : sid = L
      · subst hsn
        rw [hscope_new]
        exact List.Pairwise.nil
      · have hsl2 : sid < L := by omega
        rw [hthr sid hsl2]
        exact h.throughSorted sid hsl2
    · -- strat
      show Strat st' (L :: s :: rest)
      rw [Strat]
      constructor
      · intro p hp x hx y hy
        rw [hscope_new] at hy
        simp [hnew] at hy
      · refine strat_congr ?_ h.strat
        intro g hg
        have hglt : g < L := stackChain_mem_lt h.stackChain g hg
        exact hthr g hglt
  · -- Evolves
    refine ⟨by omega, fun g hg => hkind g hg, fun g hg => hpar g hg, ?_, ?_, ?_, le_refl _,
      fun x _ => by rw [hbindOf x], fun x _ => by rw [hbindOf x],
      fun x _ => by rw [hbindOf x]; exact growsTo_refl _,
      fun x _ => by rw [hbindOf x]; exact growsTo_refl _,
      le_refl _, fun r _ => by rw [hrefOf r], fun r _ => by rw [hrefOf r],
      fun r _ => Or.inr (by rw [hrefOf r]), by rw [hunres]; exact growsTo_refl _⟩
    · intro g hg
      by_cases hgs : g = s
      · subst hgs
        rw [hscope_self, hsc3, hsAs]
        exact growsTo_append _ _
      · rw [hscope_lt g hg hgs]
        exact growsTo_refl _
    · intro g hg
      rw [hbinds g hg]
      exact growsTo_refl _
    · intro g hg
      rw [hsrefs g hg]
      exact growsTo_refl _

end ScopeEngine

namespace ScopeEngine

theorem chainMiss_of_pathMiss {st : St} {stack : List Nat} {n : String} {f sid : Nat}
    (h : PathMiss st stack n f sid) (hsid : ChainMiss st n sid) : ChainMiss st n f := by
  induction h with
  | refl s => exact hsid
  | step f p s hnotin hmiss hpar htail ih => exact ChainMiss.step f p hmiss hpar (ih hsid)

theorem notMem_through_of_tc_zero {st : St} {rid : Nat} (htc : throughCount st rid = 0)
    (s : Nat) (hs : s < st.scopes.length) : rid ∉ (st.scopeOf s).through := by
  intro hmem
  have hsc : st.scopeOf s = st.scopes[s] := by
    simp only [St.scopeOf, List.getD, List.get?_eq_getElem?, List.getElem?_eq_getElem hs,
      Option.getD_some]
  have hmem2 : (st.scopes[s]).through.count rid ∈ st.scopes.map (fun sc => sc.through.count rid) :=
    List.mem_map_of_mem _ (by exact List.getElem_mem hs)
  have hzero := (List.sum_eq_zero_iff.mp htc) _ hmem2
  rw [hsc] at hmem
  rw [List.count_eq_zero] at hzero
  exact hzero hmem

theorem closeLoop_cons_some (st : St) (sid rid : Nat) (rem : List Nat) (bid : Nat)
    (hfind : st.findBinding sid (st.refOf rid).name = some bid) :
    closeLoop st sid (rid :: rem) =
      closeLoop (setBind (setRef st rid { st.refOf rid with resolved := some bid }) bid
        { st.bindOf bid with refs := (st.bindOf bid).refs ++ [rid] }) sid rem := by
  rw [closeLoop, hfind]
  rfl

theorem closeLoop_cons_prop (st : St) (sid rid : Nat) (rem : List Nat) (p : Nat)
    (hfind : st.findBinding sid (st.refOf rid).name = none)
    (hpar : (st.scopeOf sid).parent = some p) :
    closeLoop st sid (rid :: rem) =
      closeLoop (setScope st p { st.scopeOf p with through := (st.scopeOf p).through ++ [rid] })
        sid rem := by
  rw [closeLoop, hfind, hpar]

theorem closeLoop_cons_root (st : St) (sid rid : Nat) (rem : List Nat)
    (hfind : st.findBinding sid (st.refOf rid).name = none)
    (hpar : (st.scopeOf sid).parent = none) :
    closeLoop st sid (rid :: rem) =
      closeLoop { st with unresolved := st.unresolved ++ [rid] } sid rem := by
  rw [closeLoop, hfind, hpar]

end ScopeEngine

namespace ScopeEngine

theorem closeLoop_spec (sid : Nat) (rest : List Nat) :
    ∀ (pend : List Nat) (st : St), CInv st sid rest pend →
    CInv (closeLoop st sid pend) sid rest [] ∧ Evolves st (closeLoop st sid pend) ∧
    ((st.scopeOf sid).parent.isSome → (closeLoop st sid pend).unresolved = st.unresolved) := by
  intro pend
  induction pend with
  | nil =>
    intro st c
    exact ⟨c, evolves_refl st, fun _ => rfl⟩
  | cons rid rem ih =>
    intro st c
    have hridlt : rid < st.refs.length := c.pendLt rid (by simp)
    have hflag := c.occ rid hridlt
    have hcnt : List.count rid (rid :: rem) = List.count rid rem + 1 := by
      rw [List.count_cons]
      simp
    rw [hcnt] at hflag
    have hresnone : (st.refOf rid).resolved = none := by
      rcases hres : (st.refOf rid).resolved with _ | b0
      · rfl
      · rw [hres] at hflag
        simp at hflag
        exfalso
        omega
    rw [hresnone] at hflag
    simp at hflag
    have htc0 : throughCount st rid = 0 := by omega
    have hrem0 : List.count rid rem = 0 := by omega
    have hunres0 : List.count rid st.unresolved = 0 := by omega
    have hridrem : rid ∉ rem := List.count_eq_zero.mp hrem0
    have hridunres : rid ∉ st.unresolved := List.count_eq_zero.mp hunres0
    have hnotthr : ∀ s, s < st.scopes.length → rid ∉ (st.scopeOf s).through :=
      fun s hs => notMem_through_of_tc_zero htc0 s hs
    have hremlt : ∀ r ∈ rem, r < st.refs.length := fun r hr => c.pendLt r (by simp [hr])
    have hremsorted : List.Pairwise (· < ·) rem := List.Pairwise.of_cons c.pendSorted
    have hridrel : ∀ q ∈ rem, rid < q := fun q hq => List.rel_of_pairwise_cons c.pendSorted hq
    rcases hfind : st.findBinding sid (st.refOf rid).name with _ | bid
    · -- no match in the closing scope
      rcases hpar : (st.scopeOf sid).parent with _ | p
      · -- root scope: record as unresolved
        have hrestnil : rest = [] := by
          have := c.sidParent
          rw [hpar] at this
          cases rest with
          | nil => rfl
          | cons a b => simp at this
        subst hrestnil
        rw [closeLoop_cons_root st sid rid rem hfind hpar]
        set st2 : St := { st with unresolved := st.unresolved ++ [rid] } with hst2
        have hsc : ∀ g, st2.scopeOf g = st.scopeOf g := fun _ => rfl
        have hparg : ∀ g, (st2.scopeOf g).parent = (st.scopeOf g).parent := fun _ => rfl
        have hbo : ∀ x, st2.bindOf x = st.bindOf x := fun _ => rfl
        have hro : ∀ x, st2.refOf x = st.refOf x := fun _ => rfl
        have hfb : ∀ f n', st2.findBinding f n' = st.findBinding f n' := fun _ _ => rfl
        have htc : ∀ x, throughCount st2 x = throughCount st x := fun _ => rfl
        have cinv2 : CInv st2 sid [] rem :=
          { scopesNe := c.scopesNe
            rootGlobal := c.rootGlobal
            parentLt := c.parentLt
            parentRoot := c.parentRoot
            scopeBinds := c.scopeBinds
            bindOwner := c.bindOwner
            refFrom := c.refFrom
            throughLt := c.throughLt
            pendLt := fun r hr => hremlt r hr
            unresolvedOK := by
              intro r hr
              have hr2 : r ∈ st.unresolved ++ [rid] := hr
              rw [List.mem_append] at hr2
              rcases hr2 with hr2 | hr2
              · obtain ⟨h1, h2⟩ := c.unresolvedOK r hr2
                exact ⟨h1, chainMiss_congr (fun g => hfb g _) hparg h2⟩
              · rw [List.mem_singleton] at hr2
                subst hr2
                refine ⟨hridlt, ?_⟩
                have hbase := ChainMiss.root _ hfind hpar
                have hpath := c.pendChainSid r (by simp)
                exact chainMiss_congr (fun g => hfb g _) hparg
                  (chainMiss_of_pathMiss hpath hbase)
            sidLt := c.sidLt
            sidNotin := c.sidNotin
            sidParent := c.sidParent
            stackChain := trivial
            occ := by
              intro r hr
              have hold := c.occ r hr
              have e1 : st2.unresolved.count r = st.unresolved.count r + List.count r [rid] := by
                show (st.unresolved ++ [rid]).count r = _
                rw [List.count_append]
              rw [hro r, htc r, e1]
              by_cases hrr : r = rid
              · have e5 : List.count r [rid] = 1 := by rw [hrr]; simp
                have e6 : List.count r (rid :: rem) = List.count r rem + 1 := by
                  rw [hrr]; exact hcnt
                have e7 : List.count r rem = 0 := by rw [hrr]; exact hrem0
                rw [e6] at hold
                rw [e5, e7]
                omega
              · have e2 : List.count r [rid] = 0 :=
                  List.count_eq_zero.mpr (by simp; omega)
                have e3 : List.count r (rid :: rem) = List.count r rem := by
                  rw [List.count_cons]
                  simp
                  omega
                rw [e3] at hold
                rw [e2]
                omega
            closedThrough := c.closedThrough
            pendChain := by
              intro s hs r hr
              rw [hro r]
              exact pathMiss_congr (fun g _ => hfb g _) hparg (c.pendChain s hs r hr)
            pendChainSid := by
              intro r hr
              rw [hro r]
              exact pathMiss_congr (fun g _ => hfb g _) hparg
                (c.pendChainSid r (by simp [hr]))
            resolvedOK := by
              intro r hr b hres
              rw [hro r] at hres ⊢
              obtain ⟨h1, h2, h3, h4, h5⟩ := c.resolvedOK r hr b hres
              exact ⟨h1, h2, h3, h4, pathMiss_congr (fun g _ => hfb g _) hparg h5⟩
            namesNodup := c.namesNodup
            defsOK := by
              intro x hx d2 hd2
              obtain ⟨g1, g2, g3, g4⟩ := c.defsOK x hx d2 hd2
              refine ⟨g1, g2, ?_, g4⟩
              intro hk
              obtain ⟨g5, g6⟩ := g3 hk
              refine ⟨?_, g6⟩
              rw [hbo x, g5]
              show nearestFGAux st _ _ = nearestFGAux st2 _ _
              exact (@nearestFGAux_congr st st2 (fun g => rfl) (fun g => rfl) _ _).symm
            bindRefs := by
              intro x hx r hr
              obtain ⟨h1, h2⟩ := c.bindRefs x hx r hr
              exact ⟨h1, by rw [hro r]; exact h2⟩
            bindRefsOpen := c.bindRefsOpen
            bindRefsSid := by
              intro x hx hox r hr q hq
              exact c.bindRefsSid x hx hox r hr q (by simp [hq])
            bindRefsSorted := c.bindRefsSorted
            throughSorted := c.throughSorted
            pendSorted := hremsorted
            strat := trivial
            stratPend := by intro p hp; simp at hp }
        obtain ⟨c2, hev2, hun2⟩ := ih st2 cinv2
        refine ⟨c2, evolves_trans ?_ hev2, ?_⟩
        · exact ⟨le_refl _, fun _ _ => rfl, fun _ _ => rfl, fun _ _ => growsTo_refl _,
            fun _ _ => growsTo_refl _, fun _ _ => growsTo_refl _, le_refl _,
            fun _ _ => rfl, fun _ _ => rfl, fun _ _ => growsTo_refl _,
            fun _ _ => growsTo_refl _, le_refl _, fun _ _ => rfl, fun _ _ => rfl,
            fun _ _ => Or.inr rfl, growsTo_append _ _⟩
        · intro hc
          simp at hc
      · -- propagate to the parent scope
        obtain ⟨rest', hrest⟩ : ∃ rest', rest = p :: rest' := by
          have := c.sidParent
          rw [hpar] at this
          cases rest with
          | nil => simp at this
          | cons a b =>
            simp at this
            exact ⟨b, by rw [this]⟩
        rw [closeLoop_cons_prop st sid rid rem p hfind hpar]
        have hpmem : p ∈ rest := by rw [hrest]; simp
        have hplt : p < st.scopes.length := stackChain_mem_lt c.stackChain p hpmem
        have hpsid : p ≠ sid := fun he => c.sidNotin (he ▸ hpmem)
        set scP : ScopeNode :=
          { st.scopeOf p with through := (st.scopeOf p).through ++ [rid] } with hscP
        set st2 : St := setScope st p scP with hst2
        have hsc_self : st2.scopeOf p = scP := scopeOf_setScope_self st p scP hplt
        have hsc_ne : ∀ g, g ≠ p → st2.scopeOf g = st.scopeOf g :=
          fun g hg => scopeOf_setScope_ne st p g scP (fun he => hg he.symm)
        have hkind : ∀ g, (st2.scopeOf g).kind = (st.scopeOf g).kind := by
          intro g
          by_cases hg : g = p
          · subst hg; rw [hsc_self]
          · rw [hsc_ne g hg]
        have hparg : ∀ g, (st2.scopeOf g).parent = (st.scopeOf g).parent := by
          intro g
          by_cases hg : g = p
          · subst hg; rw [hsc_self]
          · rw [hsc_ne g hg]
        have hbindsg : ∀ g, (st2.scopeOf g).bindings = (st.scopeOf g).bindings := by
          intro g
          by_cases hg : g = p
          · subst hg; rw [hsc_self]
          · rw [hsc_ne g hg]
        have hsrefsg : ∀ g, (st2.scopeOf g).refs = (st.scopeOf g).refs := by
          intro g
          by_cases hg : g = p
          · subst hg; rw [hsc_self]
          · rw [hsc_ne g hg]
        have hthr_p : (st2.scopeOf p).through = (st.scopeOf p).through ++ [rid] := by
          rw [hsc_self]
        have hthr_ne : ∀ g, g ≠ p → (st2.scopeOf g).through = (st.scopeOf g).through :=
          fun g hg => by rw [hsc_ne g hg]
        have hbo : ∀ x, st2.bindOf x = st.bindOf x := fun _ => rfl
        have hro : ∀ x, st2.refOf x = st.refOf x := fun _ => rfl
        have hslen : st2.scopes.length = st.scopes.length := setScope_length st p scP
        have hfb : ∀ f n', st2.findBinding f n' = st.findBinding f n' := by
          intro f n'
          exact findBinding_setScope st p scP f n' rfl
        have htcN : throughCount st2 rid = throughCount st rid + 1 := by
          have h2 := throughCount_setScope st p scP rid hplt
          rw [← hst2] at h2
          have e4 : scP.through.count rid = (st.scopeOf p).through.count rid + 1 := by
            show ((st.scopeOf p).through ++ [rid]).count rid = _
            rw [List.count_append]
            simp
          omega
        have htcO : ∀ x, x ≠ rid → throughCount st2 x = throughCount st x := by
          intro x hx
          have h2 := throughCount_setScope st p scP x hplt
          rw [← hst2] at h2
          have e4 : scP.through.count x = (st.scopeOf p).through.count x := by
            show ((st.scopeOf p).through ++ [rid]).count x = _
            rw [List.count_append]
            have e5 : List.count x [rid] = 0 := List.count_eq_zero.mpr (by simp [hx])
            rw [e5]
            omega
          omega
        have cinv2 : CInv st2 sid rest rem :=
          { scopesNe := by
              intro hc
              have := hslen
              rw [hc] at this
              exact c.scopesNe (List.length_eq_zero.mp this.symm)
            rootGlobal := by rw [hkind 0]; exact c.rootGlobal
            parentLt := by
              intro s hs q hq
              rw [hslen] at hs
              rw [hparg s] at hq
              exact c.parentLt s hs q hq
            parentRoot := by
              intro s hs
              rw [hslen] at hs
              rw [hparg s]
              exact c.parentRoot s hs
            scopeBinds := by
              intro s hs x hx
              rw [hslen] at hs
              rw [hbindsg s] at hx
              obtain ⟨h1, h2⟩ := c.scopeBinds s hs x hx
              exact ⟨h1, by rw [hbo x]; exact h2⟩
            bindOwner := by
              intro x hx
              obtain ⟨h1, h2⟩ := c.bindOwner x hx
              rw [hbo x]
              refine ⟨by omega, ?_⟩
              rw [hbindsg _]
              exact h2
            refFrom := by
              intro r hr
              rw [hro r, hslen]
              exact c.refFrom r hr
            throughLt := by
              intro s hs r hr
              rw [hslen] at hs
              by_cases hg : s = p
              · subst hg
                rw [hthr_p, List.mem_append] at hr
                rcases hr with hr | hr
                · exact c.throughLt s hs r hr
                · rw [List.mem_singleton] at hr
                  subst hr
                  exact hridlt
              · rw [hthr_ne s hg] at hr
                exact c.throughLt s hs r hr
            pendLt := fun r hr => hremlt r hr
            unresolvedOK := by
              intro r hr
              obtain ⟨h1, h2⟩ := c.unresolvedOK r hr
              exact ⟨h1, by rw [hro r]; exact chainMiss_congr (fun g => hfb g _) hparg h2⟩
            sidLt := by rw [hslen]; exact c.sidLt
            sidNotin := c.sidNotin
            sidParent := by rw [hparg sid]; exact c.sidParent
            stackChain := stackChain_congr (by omega) (fun g _ => hparg g) c.stackChain
            occ := by
              intro r hr
              have hold := c.occ r hr
              rw [hro r]
              by_cases hrr : r = rid
              · subst hrr
                rw [hcnt] at hold
                rw [htcN]
                have e0 : st2.unresolved.count r = st.unresolved.count r := rfl
                rw [e0]
                omega
              · have e3 : List.count r (rid :: rem) = List.count r rem := by
                  rw [List.count_cons]
                  simp
                  omega
                rw [e3] at hold
                rw [htcO r hrr]
                have e0 : st2.unresolved.count r = st.unresolved.count r := rfl
                rw [e0]
                omega
            closedThrough := by
              intro s hs hnot
              rw [hslen] at hs
              have hg : s ≠ p := fun he => hnot (he ▸ hpmem)
              rw [hthr_ne s hg]
              exact c.closedThrough s hs hnot
            pendChain := by
              intro s hs r hr
              rw [hslen] at hs
              rw [hro r]
              by_cases hg : s = p
              · subst hg
                rw [hthr_p, List.mem_append] at hr
                rcases hr with hr | hr
                · exact pathMiss_congr (fun g _ => hfb g _) hparg (c.pendChain s hs r hr)
                · rw [List.mem_singleton] at hr
                  subst hr
                  have hpath := c.pendChainSid r (by simp)
                  have hsnoc := pathMiss_snoc c.sidNotin hfind hpar hpath
                  exact pathMiss_congr (fun g _ => hfb g _) hparg hsnoc
              · rw [hthr_ne s hg] at hr
                exact pathMiss_congr (fun g _ => hfb g _) hparg (c.pendChain s hs r hr)
            pendChainSid := by
              intro r hr
              rw [hro r]
              exact pathMiss_congr (fun g _ => hfb g _) hparg
                (c.pendChainSid r (by simp [hr]))
            resolvedOK := by
              intro r hr b hres
              rw [hro r] at hres ⊢
              obtain ⟨h1, h2, h3, h4, h5⟩ := c.resolvedOK r hr b hres
              rw [hbo b]
              exact ⟨h1, h2, by rw [hfb]; exact h3, h4,
                pathMiss_congr (fun g _ => hfb g _) hparg h5⟩
            namesNodup := by
              intro s hs
              rw [hslen] at hs
              rw [hbindsg s]
              have e1 : ((st.scopeOf s).bindings.map (fun x => (st2.bindOf x).name)) =
                  ((st.scopeOf s).bindings.map (fun x => (st.bindOf x).name)) :=
                List.map_congr_left (fun x _ => by rw [hbo x])
              rw [e1]
              exact c.namesNodup s hs
            defsOK := by
              intro x hx d2 hd2
              rw [hbo x] at hd2 ⊢
              obtain ⟨g1, g2, g3, g4⟩ := c.defsOK x hx d2 hd2
              refine ⟨g1, by omega, ?_, g4⟩
              intro hk
              obtain ⟨g5, g6⟩ := g3 hk
              refine ⟨?_, by rw [hkind]; exact g6⟩
              rw [g5]
              show nearestFGAux st _ _ = nearestFGAux st2 _ _
              rw [nearestFGAux_congr hkind hparg]
            bindRefs := by
              intro x hx r hr
              rw [hbo x] at hr
              obtain ⟨h1, h2⟩ := c.bindRefs x hx r hr
              exact ⟨h1, by rw [hro r]; exact h2⟩
            bindRefsOpen := by
              intro x hx hop
              rw [hbo x] at hop ⊢
              exact c.bindRefsOpen x hx hop
            bindRefsSid := by
              intro x hx hox r hr q hq
              rw [hbo x] at hox hr
              exact c.bindRefsSid x hx hox r hr q (by simp [hq])
            bindRefsSorted := by
              intro x hx
              rw [hbo x]
              exact c.bindRefsSorted x hx
            throughSorted := by
              intro s hs
              rw [hslen] at hs
              by_cases hg : s = p
              · subst hg
                rw [hthr_p, List.pairwise_append]
                refine ⟨c.throughSorted s hs, by simp, ?_⟩
                intro a ha b hb
                rw [List.mem_singleton] at hb
                subst hb
                exact c.stratPend s hpmem a ha _ (by simp)
              · rw [hthr_ne s hg]
                exact c.throughSorted s hs
            pendSorted := hremsorted
            strat := by
              rw [hrest]
              rw [Strat]
              have hstrat := c.strat
              rw [hrest, Strat] at hstrat
              have hpnotin : p ∉ rest' := by
                have hch := c.stackChain
                rw [hrest] at hch
                exact stackChain_notMem_tail c.parentLt hch
              constructor
              · intro q hq x hx y hy
                have hqp : q ≠ p := fun he => hpnotin (he ▸ hq)
                rw [hthr_ne q hqp] at hx
                rw [hthr_p, List.mem_append] at hy
                rcases hy with hy | hy
                · exact hstrat.1 q hq x hx y hy
                · rw [List.mem_singleton] at hy
                  subst hy
                  exact c.stratPend q (by rw [hrest]; simp [hq]) x hx _ (by simp)
              · refine strat_congr ?_ hstrat.2
                intro g hg
                have hgp : g ≠ p := fun he => hpnotin (he ▸ hg)
                exact hthr_ne g hgp
            stratPend := by
              intro q hq x hx y hy
              by_cases hg : q = p
              · subst hg
                rw [hthr_p, List.mem_append] at hx
                rcases hx with hx | hx
                · exact c.stratPend q hq x hx y (by simp [hy])
                · rw [List.mem_singleton] at hx
                  subst hx
                  exact hridrel y hy
              · rw [hthr_ne q hg] at hx
                exact c.stratPend q hq x hx y (by simp [hy]) }
        obtain ⟨c2, hev2, hun2⟩ := ih st2 cinv2
        refine ⟨c2, evolves_trans ?_ hev2, ?_⟩
        · refine ⟨by omega, fun g _ => hkind g, fun g _ => hparg g, ?_, ?_, ?_, le_refl _,
            fun x _ => by rw [hbo x], fun x _ => by rw [hbo x],
            fun x _ => by rw [hbo x]; exact growsTo_refl _,
            fun x _ => by rw [hbo x]; exact growsTo_refl _,
            le_refl _, fun r _ => by rw [hro r], fun r _ => by rw [hro r],
            fun r _ => Or.inr (by rw [hro r]), growsTo_refl _⟩
          · intro g _
            by_cases hg : g = p
            · subst hg; rw [hsc_self]; exact growsTo_refl _
            · rw [hsc_ne g hg]; exact growsTo_refl _
          · intro g _
            rw [hbindsg g]
            exact growsTo_refl _
          · intro g _
            rw [hsrefsg g]
            exact growsTo_refl _
        · intro hc
          have hc2 : (st2.scopeOf sid).parent.isSome := by
            rw [hparg sid, hpar]
            rfl
          rw [hun2 hc2]
          rfl
    · -- match: resolve against a binding of the closing scope
      rw [closeLoop_cons_some st sid rid rem bid hfind]
      have hbmem : bid ∈ (st.scopeOf sid).bindings := List.mem_of_find?_eq_some hfind
      have hbname : (st.bindOf bid).name = (st.refOf rid).name := by
        have := List.find?_some hfind
        simpa using this
      obtain ⟨hblt, howner⟩ := c.scopeBinds sid c.sidLt bid hbmem
      set r2 : RefRec := { st.refOf rid with resolved := some bid } with hr2
      set stA : St := setRef st rid r2 with hstA
      set b2 : BindingRec := { st.bindOf bid with refs := (st.bindOf bid).refs ++ [rid] } with hb2
      set st2 : St := setBind stA bid b2 with hst2
      have hsc : ∀ g, st2.scopeOf g = st.scopeOf g := fun _ => rfl
      have hparg : ∀ g, (st2.scopeOf g).parent = (st.scopeOf g).parent := fun _ => rfl
      have hro_ne : ∀ x, x ≠ rid → st2.refOf x = st.refOf x := by
        intro x hx
        show stA.refOf x = st.refOf x
        exact refOf_setRef_ne st rid x r2 (fun he => hx he.symm)
      have hro_self : st2.refOf rid = r2 := by
        show stA.refOf rid = r2
        exact refOf_setRef_self st rid r2 hridlt
      have hbo_ne : ∀ x, x ≠ bid → st2.bindOf x = st.bindOf x := by
        intro x hx
        have e1 : st2.bindOf x = stA.bindOf x :=
          bindOf_setBind_ne stA bid x b2 (fun he => hx he.symm)
        rw [e1]
        rfl
      have hbo_self : st2.bindOf bid = b2 := by
        have e1 : st2.bindOf bid = b2 := bindOf_setBind_self stA bid b2 hblt
        exact e1
      have hnm : ∀ x, (st2.bindOf x).name = (st.bindOf x).name := by
        intro x
        by_cases hx : x = bid
        · subst hx; rw [hbo_self]
        · rw [hbo_ne x hx]
      have howng : ∀ x, (st2.bindOf x).owningScope = (st.bindOf x).owningScope := by
        intro x
        by_cases hx : x = bid
        · subst hx; rw [hbo_self]
        · rw [hbo_ne x hx]
      have hdefsg : ∀ x, (st2.bindOf x).defs = (st.bindOf x).defs := by
        intro x
        by_cases hx : x = bid
        · subst hx; rw [hbo_self]
        · rw [hbo_ne x hx]
      have hblen : st2.bindings.length = st.bindings.length := by
        show (stA.bindings.set bid b2).length = st.bindings.length
        rw [List.length_set]
        rfl
      have hrlen : st2.refs.length = st.refs.length := by
        show (st.refs.set rid r2).length = st.refs.length
        rw [List.length_set]
      have hfb : ∀ f n', st2.findBinding f n' = st.findBinding f n' := by
        intro f n'
        have e1 : st2.findBinding f n' = stA.findBinding f n' :=
          findBinding_setBind stA bid b2 rfl f n'
        rw [e1]
        exact findBinding_setRef st rid r2 f n'
      have htc : ∀ x, throughCount st2 x = throughCount st x := fun _ => rfl
      have hunres : st2.unresolved = st.unresolved := rfl
      have cinv2 : CInv st2 sid rest rem :=
        { scopesNe := c.scopesNe
          rootGlobal := c.rootGlobal
          parentLt := c.parentLt
          parentRoot := c.parentRoot
          scopeBinds := by
            intro s hs x hx
            obtain ⟨h1, h2⟩ := c.scopeBinds s hs x hx
            exact ⟨by omega, by rw [howng x]; exact h2⟩
          bindOwner := by
            intro x hx
            rw [hblen] at hx
            obtain ⟨h1, h2⟩ := c.bindOwner x hx
            rw [howng x]
            exact ⟨h1, h2⟩
          refFrom := by
            intro r hr
            rw [hrlen] at hr
            by_cases hrr : r = rid
            · subst hrr
              rw [hro_self]
              exact c.refFrom r hr
            · rw [hro_ne r hrr]
              exact c.refFrom r hr
          throughLt := by
            intro s hs r hr
            rw [hrlen]
            exact c.throughLt s hs r hr
          pendLt := by
            intro r hr
            rw [hrlen]
            exact hremlt r hr
          unresolvedOK := by
            intro r hr
            rw [hunres] at hr
            obtain ⟨h1, h2⟩ := c.unresolvedOK r hr
            have hrr : r ≠ rid := fun he => hridunres (he ▸ hr)
            refine ⟨by omega, ?_⟩
            rw [hro_ne r hrr]
            exact chainMiss_congr (fun g => hfb g _) hparg h2
          sidLt := c.sidLt
          sidNotin := c.sidNotin
          sidParent := c.sidParent
          stackChain := @stackChain_congr st st2 rest (le_refl _) (fun g _ => rfl) c.stackChain
          occ := by
            intro r hr
            rw [hrlen] at hr
            have hold := c.occ r hr
            rw [htc r]
            have e0 : st2.unresolved.count r = st.unresolved.count r := rfl
            rw [e0]
            by_cases hrr : r = rid
            · subst hrr
              rw [hcnt] at hold
              rw [hro_self]
              simp [hr2]
              omega
            · rw [hro_ne r hrr]
              have e3 : List.count r (rid :: rem) = List.count r rem := by
                rw [List.count_cons]
                simp
                omega
              rw [e3] at hold
              omega
          closedThrough := c.closedThrough
          pendChain := by
            intro s hs r hr
            have hrnotrid : r ≠ rid := by
              intro he
              exact hnotthr s hs (he ▸ hr)
            rw [hro_ne r hrnotrid]
            exact pathMiss_congr (fun g _ => hfb g _) hparg (c.pendChain s hs r hr)
          pendChainSid := by
            intro r hr
            have hrnotrid : r ≠ rid := fun he => hridrem (he ▸ hr)
            rw [hro_ne r hrnotrid]
            exact pathMiss_congr (fun g _ => hfb g _) hparg
              (c.pendChainSid r (by simp [hr]))
          resolvedOK := by
            intro r hr b hres
            rw [hrlen] at hr
            by_cases hrr : r = rid
            · subst hrr
              rw [hro_self] at hres ⊢
              simp only [hr2] at hres
              have hbb : b = bid := by
                have : some bid = some b := hres ▸ rfl
                simpa using this.symm
              subst hbb
              have hname2 : (st2.bindOf b).name = (st.refOf r).name := by
                rw [hnm b]
                exact hbname
              refine ⟨by omega, ?_, ?_, ?_, ?_⟩
              · show (st2.bindOf b).name = r2.name
                rw [hname2]
              · rw [howng b, howner]
                show st2.findBinding sid r2.name = some b
                rw [hfb]
                show st.findBinding sid (st.refOf r).name = some b
                exact hfind
              · rw [howng b, howner]
                exact c.sidNotin
              · rw [howng b, howner]
                have hpath := c.pendChainSid r (by simp)
                have hsub : PathMiss st rest (st.refOf r).name (st.refOf r).fromScope sid :=
                  pathMiss_subStack (fun g hg => by simp [hg]) hpath
                show PathMiss st2 rest r2.name r2.fromScope sid
                have e1 : r2.name = (st.refOf r).name := rfl
                have e2 : r2.fromScope = (st.refOf r).fromScope := rfl
                rw [e1, e2]
                exact pathMiss_congr (fun g _ => hfb g _) hparg hsub
            · rw [hro_ne r hrr] at hres ⊢
              obtain ⟨h1, h2, h3, h4, h5⟩ := c.resolvedOK r hr b hres
              rw [howng b]
              refine ⟨by omega, by rw [hnm b]; exact h2, by rw [hfb]; exact h3, h4,
                pathMiss_congr (fun g _ => hfb g _) hparg h5⟩
          namesNodup := by
            intro s hs
            have e1 : ((st.scopeOf s).bindings.map (fun x => (st2.bindOf x).name)) =
                ((st.scopeOf s).bindings.map (fun x => (st.bindOf x).name)) :=
              List.map_congr_left (fun x _ => hnm x)
            show ((st.scopeOf s).bindings.map (fun x => (st2.bindOf x).name)).Nodup
            rw [e1]
            exact c.namesNodup s hs
          defsOK := by
            intro x hx d2 hd2
            rw [hblen] at hx
            rw [hdefsg x] at hd2
            obtain ⟨g1, g2, g3, g4⟩ := c.defsOK x hx d2 hd2
            rw [hnm x, howng x]
            refine ⟨g1, g2, ?_, g4⟩
            intro hk
            obtain ⟨g5, g6⟩ := g3 hk
            refine ⟨?_, g6⟩
            rw [g5]
            show nearestFGAux st _ _ = nearestFGAux st2 _ _
            exact (@nearestFGAux_congr st st2 (fun g => rfl) (fun g => rfl) _ _).symm
          bindRefs := by
            intro x hx r hr
            rw [hblen] at hx
            by_cases hxb : x = bid
            · subst hxb
              rw [hbo_self] at hr
              simp only [hb2, List.mem_append] at hr
              rcases hr with hr | hr
              · obtain ⟨h1, h2⟩ := c.bindRefs x hx r hr
                have hrr : r ≠ rid := by
                  intro he
                  rw [he, hresnone] at h2
                  simp at h2
                rw [hro_ne r hrr, hrlen]
                exact ⟨h1, h2⟩
              · rw [List.mem_singleton] at hr
                subst hr
                rw [hro_self, hrlen]
                exact ⟨hridlt, rfl⟩
            · rw [hbo_ne x hxb] at hr
              obtain ⟨h1, h2⟩ := c.bindRefs x hx r hr
              have hrr : r ≠ rid := by
                intro he
                rw [he, hresnone] at h2
                simp at h2
              rw [hro_ne r hrr, hrlen]
              exact ⟨h1, h2⟩
          bindRefsOpen := by
            intro x hx hop
            rw [hblen] at hx
            rw [howng x] at hop
            have hxb : x ≠ bid := by
              intro he
              rw [he, howner] at hop
              exact c.sidNotin hop
            rw [hbo_ne x hxb]
            exact c.bindRefsOpen x hx hop
          bindRefsSid := by
            intro x hx hox r hr q hq
            rw [hblen] at hx
            rw [howng x] at hox
            by_cases hxb : x = bid
            · subst hxb
              rw [hbo_self] at hr
              simp only [hb2, List.mem_append] at hr
              rcases hr with hr | hr
              · exact c.bindRefsSid x hx hox r hr q (by simp [hq])
              · rw [List.mem_singleton] at hr
                subst hr
                exact hridrel q hq
            · rw [hbo_ne x hxb] at hr
              exact c.bindRefsSid x hx hox r hr q (by simp [hq])
          bindRefsSorted := by
            intro x hx
            rw [hblen] at hx
            by_cases hxb : x = bid
            · subst hxb
              rw [hbo_self]
              show List.Pairwise (· < ·) ((st.bindOf x).refs ++ [rid])
              rw [List.pairwise_append]
              refine ⟨c.bindRefsSorted x hx, by simp, ?_⟩
              intro a ha b hb
              rw [List.mem_singleton] at hb
              subst hb
              exact c.bindRefsSid x hx howner a ha b (by simp)
            · rw [hbo_ne x hxb]
              exact c.bindRefsSorted x hx
          throughSorted := c.throughSorted
          pendSorted := hremsorted
          strat := @strat_congr st st2 rest (fun g _ => rfl) c.strat
          stratPend := by
            intro q hq x hx y hy
            exact c.stratPend q hq x hx y (by simp [hy]) }
      obtain ⟨c2, hev2, hun2⟩ := ih st2 cinv2
      refine ⟨c2, evolves_trans ?_ hev2, ?_⟩
      · refine ⟨le_refl _, fun g _ => rfl, fun g _ => rfl, fun _ _ => growsTo_refl _,
          fun _ _ => growsTo_refl _, fun _ _ => growsTo_refl _, by omega, fun x _ => hnm x,
          fun x _ => howng x, fun x _ => by rw [hdefsg x]; exact growsTo_refl _, ?_,
          by omega, ?_, ?_, ?_, by rw [hunres]; exact growsTo_refl _⟩
        · intro x _
          by_cases hxb : x = bid
          · subst hxb
            rw [hbo_self]
            exact growsTo_append _ _
          · rw [hbo_ne x hxb]
            exact growsTo_refl _
        · intro r hr
          by_cases hrr : r = rid
          · subst hrr
            rw [hro_self]
          · rw [hro_ne r hrr]
        · intro r hr
          by_cases hrr : r = rid
          · subst hrr
            rw [hro_self]
          · rw [hro_ne r hrr]
        · intro r hr
          by_cases hrr : r = rid
          · subst hrr
            exact Or.inl hresnone
          · exact Or.inr (by rw [hro_ne r hrr])
      · intro hc
        have hc2 : (st2.scopeOf sid).parent.isSome := by
          rw [hsc sid]
          exact hc
        rw [hun2 hc2]
        rfl

end ScopeEngine

namespace ScopeEngine

theorem lookupAux_of_pathMiss {st : St} {stack : List Nat} {n : String} {f g : Nat}
    (hplt : ∀ s, s < st.scopes.length → ∀ p, (st.scopeOf s).parent = some p → p < s)
    (h : PathMiss st stack n f g) :
    ∀ bid, st.findBinding g n = some bid → f < st.scopes.length →
    ∀ fuel, f + 1 ≤ fuel → lookupNearestAux st n fuel f = some bid := by
  induction h with
  | refl s =>
    intro bid hfind _ fuel _
    cases fuel with
    | zero => rw [lookupNearestAux, hfind]
    | succ k => rw [lookupNearestAux, hfind]
  | step f p s hnotin hmiss hpar htail ih =>
    intro bid hfind hflt fuel hfuel
    cases fuel with
    | zero => omega
    | succ k =>
      rw [lookupNearestAux, hmiss, hpar]
      have hpf : p < f := hplt f hflt p hpar
      exact ih bid hfind (by omega) k (by omega)

theorem lookupAux_of_chainMiss {st : St} {n : String} {f : Nat}
    (hplt : ∀ s, s < st.scopes.length → ∀ p, (st.scopeOf s).parent = some p → p < s)
    (h : ChainMiss st n f) :
    f < st.scopes.length → ∀ fuel, lookupNearestAux st n fuel f = none := by
  induction h with
  | root s hmiss hpar =>
    intro _ fuel
    cases fuel with
    | zero => rw [lookupNearestAux, hmiss]
    | succ k => rw [lookupNearestAux, hmiss, hpar]
  | step s p hmiss hpar htail ih =>
    intro hslt fuel
    cases fuel with
    | zero => rw [lookupNearestAux, hmiss]
    | succ k =>
      rw [lookupNearestAux, hmiss, hpar]
      have hps : p < s := hplt s hslt p hpar
      exact ih (by omega) k

theorem close_cinv (st : St) (sid : Nat) (rest : List Nat) (h : Inv st (sid :: rest)) :
    CInv (setScope st sid { st.scopeOf sid with through := [] }) sid rest
      ((st.scopeOf sid).through) := by
  have hsid : sid < st.scopes.length := stackChain_mem_lt h.stackChain sid (by simp)
  have hsidnot : sid ∉ rest := stackChain_notMem_tail h.parentLt h.stackChain
  set pend := (st.scopeOf sid).through with hpend
  set sc1 : ScopeNode := { st.scopeOf sid with through := [] } with hsc1
  set st1 : St := setScope st sid sc1 with hst1
  have hself : st1.scopeOf sid = sc1 := scopeOf_setScope_self st sid sc1 hsid
  have hne : ∀ g, g ≠ sid → st1.scopeOf g = st.scopeOf g :=
    fun g hg => scopeOf_setScope_ne st sid g sc1 (fun he => hg he.symm)
  have hkind : ∀ g, (st1.scopeOf g).kind = (st.scopeOf g).kind := by
    intro g
    by_cases hg : g = sid
    · subst hg; rw [hself]
    · rw [hne g hg]
  have hparg : ∀ g, (st1.scopeOf g).parent = (st.scopeOf g).parent := by
    intro g
    by_cases hg : g = sid
    · subst hg; rw [hself]
    · rw [hne g hg]
  have hbinds : ∀ g, (st1.scopeOf g).bindings = (st.scopeOf g).bindings := by
    intro g
    by_cases hg : g = sid
    · subst hg; rw [hself]
    · rw [hne g hg]
  have hthr_sid : (st1.scopeOf sid).through = [] := by rw [hself]
  have hthr_ne : ∀ g, g ≠ sid → (st1.scopeOf g).through = (st.scopeOf g).through :=
    fun g hg => by rw [hne g hg]
  have hbo : ∀ x, st1.bindOf x = st.bindOf x := fun _ => rfl
  have hro : ∀ x, st1.refOf x = st.refOf x := fun _ => rfl
  have hslen : st1.scopes.length = st.scopes.length := setScope_length st sid sc1
  have hfb : ∀ f n', st1.findBinding f n' = st.findBinding f n' :=
    fun f n' => findBinding_setScope st sid sc1 f n' rfl
  have htc : ∀ x, throughCount st1 x + pend.count x = throughCount st x := by
    intro x
    have h2 := throughCount_setScope st sid sc1 x hsid
    rw [← hst1, ← hpend] at h2
    have e4 : sc1.through.count x = 0 := rfl
    omega
  have hunres : st1.unresolved = st.unresolved := rfl
  refine
    { scopesNe := by
        intro hc
        have := hslen
        rw [hc] at this
        exact h.scopesNe (List.length_eq_zero.mp this.symm)
      rootGlobal := by rw [hkind 0]; exact h.rootGlobal
      parentLt := by
        intro s hs q hq
        rw [hslen] at hs
        rw [hparg s] at hq
        exact h.parentLt s hs q hq
      parentRoot := by
        intro s hs
        rw [hslen] at hs
        rw [hparg s]
        exact h.parentRoot s hs
      scopeBinds := by
        intro s hs x hx
        rw [hslen] at hs
        rw [hbinds s] at hx
        obtain ⟨h1, h2⟩ := h.scopeBinds s hs x hx
        exact ⟨h1, by rw [hbo x]; exact h2⟩
      bindOwner := by
        intro x hx
        obtain ⟨h1, h2⟩ := h.bindOwner x hx
        rw [hbo x]
        refine ⟨by omega, ?_⟩
        rw [hbinds _]
        exact h2
      refFrom := by
        intro r hr
        rw [hro r, hslen]
        exact h.refFrom r hr
      throughLt := by
        intro s hs r hr
        rw [hslen] at hs
        by_cases hg : s = sid
        · subst hg
          rw [hthr_sid] at hr
          simp at hr
        · rw [hthr_ne s hg] at hr
          exact h.throughLt s hs r hr
      pendLt := fun r hr => h.throughLt sid hsid r hr
      unresolvedOK := by
        intro r hr
        rw [hunres, h.unresolvedNil] at hr
        simp at hr
      sidLt := by rw [hslen]; exact hsid
      sidNotin := hsidnot
      sidParent := by
        rw [hparg sid]
        have hchain := h.stackChain
        rw [StackChain] at hchain
        exact hchain.2.1
      stackChain := by
        have hchain := h.stackChain
        rw [StackChain] at hchain
        exact stackChain_congr (by omega) (fun g _ => hparg g) hchain.2.2
      occ := by
        intro r hr
        have hold := h.occ r hr
        rw [hro r]
        have e0 : st1.unresolved.count r = 0 := by
          rw [hunres, h.unresolvedNil]
          rfl
        rw [e0]
        have := htc r
        omega
      closedThrough := by
        intro s hs hnot
        rw [hslen] at hs
        by_cases hg : s = sid
        · subst hg
          exact hthr_sid
        · rw [hthr_ne s hg]
          exact h.closedThrough s hs (by
            intro hc
            rcases List.mem_cons.mp hc with hc | hc
            · exact hg hc
            · exact hnot hc)
      pendChain := by
        intro s hs r hr
        rw [hslen] at hs
        by_cases hg : s = sid
        · subst hg
          rw [hthr_sid] at hr
          simp at hr
        · rw [hthr_ne s hg] at hr
          rw [hro r]
          have step1 := h.pendChain s hs r hr
          have step2 := pathMiss_subStack (fun g hg2 => List.mem_cons_of_mem sid hg2) step1
          exact pathMiss_congr (fun g _ => hfb g _) hparg step2
      pendChainSid := by
        intro r hr
        rw [hro r]
        exact pathMiss_congr (fun g _ => hfb g _) hparg (h.pendChain sid hsid r hr)
      resolvedOK := by
        intro r hr b hres
        rw [hro r] at hres ⊢
        obtain ⟨h1, h2, h3, h4, h5⟩ := h.resolvedOK r hr b hres
        rw [hbo b]
        refine ⟨h1, h2, by rw [hfb]; exact h3, fun hc => h4 (by simp [hc]), ?_⟩
        exact pathMiss_congr (fun g _ => hfb g _) hparg
          (pathMiss_subStack (fun g hg2 => List.mem_cons_of_mem sid hg2) h5)
      namesNodup := by
        intro s hs
        rw [hslen] at hs
        rw [hbinds s]
        have e1 : ((st.scopeOf s).bindings.map (fun x => (st1.bindOf x).name)) =
            ((st.scopeOf s).bindings.map (fun x => (st.bindOf x).name)) :=
          List.map_congr_left (fun x _ => by rw [hbo x])
        rw [e1]
        exact h.namesNodup s hs
      defsOK := by
        intro x hx d2 hd2
        rw [hbo x] at hd2 ⊢
        obtain ⟨g1, g2, g3, g4⟩ := h.defsOK x hx d2 hd2
        refine ⟨g1, by omega, ?_, g4⟩
        intro hk
        obtain ⟨g5, g6⟩ := g3 hk
        refine ⟨?_, by rw [hkind]; exact g6⟩
        rw [g5]
        show nearestFGAux st _ _ = nearestFGAux st1 _ _
        exact (@nearestFGAux_congr st st1 hkind hparg _ _).symm
      bindRefs := by
        intro x hx r hr
        rw [hbo x] at hr
        obtain ⟨h1, h2⟩ := h.bindRefs x hx r hr
        exact ⟨h1, by rw [hro r]; exact h2⟩
      bindRefsOpen := by
        intro x hx hop
        rw [hbo x] at hop ⊢
        exact h.bindRefsOpen x hx (by simp [hop])
      bindRefsSid := by
        intro x hx hox r hr q hq
        rw [hbo x] at hox hr
        have : (st.bindOf x).refs = [] := h.bindRefsOpen x hx (by rw [hox]; simp)
        rw [this] at hr
        simp at hr
      bindRefsSorted := by
        intro x hx
        rw [hbo x]
        exact h.bindRefsSorted x hx
      throughSorted := by
        intro s hs
        rw [hslen] at hs
        by_cases hg : s = sid
        · subst hg
          rw [hthr_sid]
          exact List.Pairwise.nil
        · rw [hthr_ne s hg]
          exact h.throughSorted s hs
      pendSorted := h.throughSorted sid hsid
      strat := by
        have hstrat := h.strat
        rw [Strat] at hstrat
        refine strat_congr ?_ hstrat.2
        intro g hg
        have hgs : g ≠ sid := fun he => hsidnot (he ▸ hg)
        exact hthr_ne g hgs
      stratPend := by
        intro q hq x hx y hy
        have hqs : q ≠ sid := fun he => hsidnot (he ▸ hq)
        rw [hthr_ne q hqs] at hx
        have hstrat := h.strat
        rw [Strat] at hstrat
        exact hstrat.1 q hq x hx y hy }

theorem close_evolves_start (st : St) (sid : Nat) (hsid : sid < st.scopes.length) :
    Evolves st (setScope st sid { st.scopeOf sid with through := [] }) := by
  set sc1 : ScopeNode := { st.scopeOf sid with through := [] } with hsc1
  have hself : (setScope st sid sc1).scopeOf sid = sc1 := scopeOf_setScope_self st sid sc1 hsid
  have hne : ∀ g, g ≠ sid → (setScope st sid sc1).scopeOf g = st.scopeOf g :=
    fun g hg => scopeOf_setScope_ne st sid g sc1 (fun he => hg he.symm)
  have hkind : ∀ g, ((setScope st sid sc1).scopeOf g).kind = (st.scopeOf g).kind := by
    intro g
    by_cases hg : g = sid
    · subst hg; rw [hself]
    · rw [hne g hg]
  have hparg : ∀ g, ((setScope st sid sc1).scopeOf g).parent = (st.scopeOf g).parent := by
    intro g
    by_cases hg : g = sid
    · subst hg; rw [hself]
    · rw [hne g hg]
  have hchild : ∀ g, ((setScope st sid sc1).scopeOf g).children = (st.scopeOf g).children := by
    intro g
    by_cases hg : g = sid
    · subst hg; rw [hself]
    · rw [hne g hg]
  have hbinds : ∀ g, ((setScope st sid sc1).scopeOf g).bindings = (st.scopeOf g).bindings := by
    intro g
    by_cases hg : g = sid
    · subst hg; rw [hself]
    · rw [hne g hg]
  have hrefs : ∀ g, ((setScope st sid sc1).scopeOf g).refs = (st.scopeOf g).refs := by
    intro g
    by_cases hg : g = sid
    · subst hg; rw [hself]
    · rw [hne g hg]
  exact ⟨by rw [setScope_length], fun g _ => hkind g, fun g _ => hparg g,
    fun g _ => by rw [hchild g]; exact growsTo_refl _,
    fun g _ => by rw [hbinds g]; exact growsTo_refl _,
    fun g _ => by rw [hrefs g]; exact growsTo_refl _,
    le_refl _, fun _ _ => rfl, fun _ _ => rfl, fun _ _ => growsTo_refl _,
    fun _ _ => growsTo_refl _, le_refl _, fun _ _ => rfl, fun _ _ => rfl,
    fun _ _ => Or.inr rfl, growsTo_refl _⟩

theorem close_spec (st : St) (sid : Nat) (rest : List Nat) (h : Inv st (sid :: rest))
    (hrest : rest ≠ []) :
    Inv (close st sid) rest ∧ Evolves st (close st sid) := by
  have hsid : sid < st.scopes.length := stackChain_mem_lt h.stackChain sid (by simp)
  have hcinv := close_cinv st sid rest h
  unfold close
  dsimp only
  set sc1 : ScopeNode := { st.scopeOf sid with through := [] } with hsc1
  set st1 : St := setScope st sid sc1 with hst1
  set pend := (st.scopeOf sid).through with hpend
  obtain ⟨cfin, hev, hunres⟩ := closeLoop_spec sid rest pend st1 hcinv
  have hparent : (st1.scopeOf sid).parent = rest.head? := hcinv.sidParent
  have hpisSome : (st1.scopeOf sid).parent.isSome := by
    rw [hparent]
    cases rest with
    | nil => exact absurd rfl hrest
    | cons a b => rfl
  have hunres2 : (closeLoop st1 sid pend).unresolved = st.unresolved := by
    rw [hunres hpisSome]
    rfl
  constructor
  · refine
      { scopesNe := cfin.scopesNe
        rootGlobal := cfin.rootGlobal
        parentLt := cfin.parentLt
        parentRoot := cfin.parentRoot
        scopeBinds := cfin.scopeBinds
        bindOwner := cfin.bindOwner
        refFrom := cfin.refFrom
        throughLt := cfin.throughLt
        unresolvedNil := by rw [hunres2]; exact h.unresolvedNil
        stackNe := hrest
        stackChain := cfin.stackChain
        occ := by
          intro r hr
          have hold := cfin.occ r hr
          have e0 : (closeLoop st1 sid pend).unresolved.count r = 0 := by
            rw [hunres2, h.unresolvedNil]
            rfl
          have e1 : List.count r ([] : List Nat) = 0 := rfl
          rw [e0, e1] at hold
          omega
        closedThrough := cfin.closedThrough
        pendChain := cfin.pendChain
        resolvedOK := cfin.resolvedOK
        namesNodup := cfin.namesNodup
        defsOK := by
          intro x hx d2 hd2
          obtain ⟨g1, g2, g3, g4⟩ := cfin.defsOK x hx d2 hd2
          exact ⟨g1, g2, g3, g4⟩
        bindRefs := cfin.bindRefs
        bindRefsOpen := cfin.bindRefsOpen
        bindRefsSorted := cfin.bindRefsSorted
        throughSorted := cfin.throughSorted
        strat := cfin.strat }
  · exact evolves_trans (close_evolves_start st sid hsid) hev

end ScopeEngine

namespace ScopeEngine

theorem closeRoot_spec (st : St) (h : Inv st [0]) :
    FinalOK (close st 0) ∧ Evolves st (close st 0) := by
  have hsid : 0 < st.scopes.length := stackChain_mem_lt h.stackChain 0 (by simp)
  have hcinv := close_cinv st 0 [] h
  unfold close
  dsimp only
  set sc1 : ScopeNode := { st.scopeOf 0 with through := [] } with hsc1
  set st1 : St := setScope st 0 sc1 with hst1
  set pend := (st.scopeOf 0).through with hpend
  obtain ⟨cfin, hev, _⟩ := closeLoop_spec 0 [] pend st1 hcinv
  set stf : St := closeLoop st1 0 pend with hstf
  have htc0 : ∀ rid, throughCount stf rid = 0 :=
    throughCount_zero_of_empty stf (fun s hs => cfin.closedThrough s hs (by simp))
  have hexcl : ∀ rid, rid < stf.refs.length →
      (if (stf.refOf rid).resolved.isSome then 1 else 0) + stf.unresolved.count rid = 1 := by
    intro rid hlt
    have hold := cfin.occ rid hlt
    have e1 : List.count rid ([] : List Nat) = 0 := rfl
    rw [htc0 rid, e1] at hold
    omega
  refine ⟨⟨hexcl, ?_, ?_, cfin.namesNodup, ?_, ?_⟩,
    evolves_trans (close_evolves_start st 0 hsid) hev⟩
  · intro rid hlt
    cases hres : (stf.refOf rid).resolved with
    | some bid =>
        obtain ⟨hbl, hname, hfind, _, hpath⟩ := cfin.resolvedOK rid hlt bid hres
        have hfrom : (stf.refOf rid).fromScope < stf.scopes.length := cfin.refFrom rid hlt
        exact (lookupAux_of_pathMiss cfin.parentLt hpath bid hfind hfrom
          ((stf.refOf rid).fromScope + 1) (le_refl _)).symm
    | none =>
        have hx := hexcl rid hlt
        rw [hres] at hx
        simp at hx
        have hmem : rid ∈ stf.unresolved := by
          by_contra hc
          rw [List.count_eq_zero.mpr hc] at hx
          exact absurd hx (by decide)
        obtain ⟨_, hcm⟩ := cfin.unresolvedOK rid hmem
        have hfrom : (stf.refOf rid).fromScope < stf.scopes.length := cfin.refFrom rid hlt
        exact (lookupAux_of_chainMiss cfin.parentLt hcm hfrom
          ((stf.refOf rid).fromScope + 1)).symm
  · intro rid hmem
    obtain ⟨hlt, _⟩ := cfin.unresolvedOK rid hmem
    refine ⟨hlt, ?_⟩
    have hx := hexcl rid hlt
    have hcnt : ¬ stf.unresolved.count rid = 0 :=
      fun hc => (List.count_eq_zero.mp hc) hmem
    cases hres : (stf.refOf rid).resolved with
    | none => rfl
    | some bid =>
        rw [hres] at hx
        simp at hx
        exact absurd hx hcnt
  · intro bid hbl d hd
    obtain ⟨g1, _, g3, g4⟩ := cfin.defsOK bid hbl d hd
    exact ⟨g1, g3, g4⟩
  · intro bid hbl
    exact ⟨cfin.bindRefsSorted bid hbl, fun r hr => cfin.bindRefs bid hbl r hr⟩

theorem init_fst_eq :
    (pushScope emptySt none .global).1 =
      (⟨[⟨.global, none, [], [], [], []⟩], [], [], []⟩ : St) := rfl

theorem init_snd_eq : (pushScope emptySt none .global).2 = 0 := rfl

theorem init_scope0 :
    (St.scopeOf ⟨[⟨.global, none, [], [], [], []⟩], [], [], []⟩ 0) =
      ⟨.global, none, [], [], [], []⟩ := rfl

theorem initial_inv :
    Inv (pushScope emptySt none .global).1 [(pushScope emptySt none .global).2] := by
  rw [init_fst_eq, init_snd_eq]
  refine
    { scopesNe := List.cons_ne_nil _ _
      rootGlobal := rfl
      parentLt := ?_
      parentRoot := ?_
      scopeBinds := ?_
      bindOwner := fun bid hbid => absurd hbid (Nat.not_lt_zero bid)
      refFrom := fun rid hrid => absurd hrid (Nat.not_lt_zero rid)
      throughLt := ?_
      unresolvedNil := rfl
      stackNe := List.cons_ne_nil _ _
      stackChain := ⟨Nat.zero_lt_one, rfl, trivial⟩
      occ := fun rid hrid => absurd hrid (Nat.not_lt_zero rid)
      closedThrough := ?_
      pendChain := ?_
      resolvedOK := fun rid hrid => absurd hrid (Nat.not_lt_zero rid)
      namesNodup := ?_
      defsOK := fun bid hbid => absurd hbid (Nat.not_lt_zero bid)
      bindRefs := fun bid hbid => absurd hbid (Nat.not_lt_zero bid)
      bindRefsOpen := fun bid hbid => absurd hbid (Nat.not_lt_zero bid)
      bindRefsSorted := fun bid hbid => absurd hbid (Nat.not_lt_zero bid)
      throughSorted := ?_
      strat := ⟨fun p hp => absurd hp (List.not_mem_nil p), trivial⟩ }
  · intro s hs p hp
    have h0 : s = 0 := by simp at hs; omega
    subst h0
    rw [init_scope0] at hp
    exact Option.noConfusion hp
  · intro s hs
    have h0 : s = 0 := by simp at hs; omega
    subst h0
    exact ⟨fun _ => rfl, fun _ => rfl⟩
  · intro s hs bid hbid
    have h0 : s = 0 := by simp at hs; omega
    subst h0
    rw [init_scope0] at hbid
    exact absurd hbid (List.not_mem_nil bid)
  · intro s hs rid hrid
    have h0 : s = 0 := by simp at hs; omega
    subst h0
    rw [init_scope0] at hrid
    exact absurd hrid (List.not_mem_nil rid)
  · intro s hs hnot
    have h0 : s = 0 := by simp at hs; omega
    subst h0
    exact absurd (by simp) hnot
  · intro s hs rid hrid
    have h0 : s = 0 := by simp at hs; omega
    subst h0
    rw [init_scope0] at hrid
    exact absurd hrid (List.not_mem_nil rid)
  · intro s hs
    have h0 : s = 0 := by simp at hs; omega
    subst h0
    rw [init_scope0]
    exact List.nodup_nil
  · intro s hs
    have h0 : s = 0 := by simp at hs; omega
    subst h0
    rw [init_scope0]
    exact List.Pairwise.nil

theorem walk_spec : ∀ (l : List Stmt) (st : St) (stack : List Nat), Inv st stack →
    Inv (walkStmts st stack l) stack ∧ Evolves st (walkStmts st stack l)
  | [], st, stack, h => by
      simp only [walkStmts]
      exact ⟨h, evolves_refl st⟩
  | .varDecl n :: rest, st, stack, h => by
      simp only [walkStmts]
      obtain ⟨h1, e1⟩ := recordDecl_spec st stack .varDef n h
      obtain ⟨h2, e2⟩ := walk_spec rest _ stack h1
      exact ⟨h2, evolves_trans e1 e2⟩
  | .letDecl n :: rest, st, stack, h => by
      simp only [walkStmts]
      obtain ⟨h1, e1⟩ := recordDecl_spec st stack .letOrConst n h
      obtain ⟨h2, e2⟩ := walk_spec rest _ stack h1
      exact ⟨h2, evolves_trans e1 e2⟩
  | .use n :: rest, st, stack, h => by
      simp only [walkStmts]
      obtain ⟨h1, e1⟩ := addRef_spec st stack n h
      obtain ⟨h2, e2⟩ := walk_spec rest _ stack h1
      exact ⟨h2, evolves_trans e1 e2⟩
  | .block body :: rest, st, stack, h => by
      simp only [walkStmts]
      obtain ⟨hp, ep, hid⟩ := pushScope_spec st stack .block h
      obtain ⟨hw, ew⟩ := walk_spec body _ _ hp
      obtain ⟨hc, ec⟩ := close_spec _ _ stack hw h.stackNe
      obtain ⟨h2, e2⟩ := walk_spec rest _ stack hc
      exact ⟨h2, evolves_trans ep (evolves_trans ew (evolves_trans ec e2))⟩
  | .func body :: rest, st, stack, h => by
      simp only [walkStmts]
      obtain ⟨hp, ep, hid⟩ := pushScope_spec st stack .function h
      obtain ⟨hw, ew⟩ := walk_spec body _ _ hp
      obtain ⟨hc, ec⟩ := close_spec _ _ stack hw h.stackNe
      obtain ⟨h2, e2⟩ := walk_spec rest _ stack hc
      exact ⟨h2, evolves_trans ep (evolves_trans ew (evolves_trans ec e2))⟩
termination_by l => sizeOf l

theorem analyze_spec (prog : List Stmt) : FinalOK (analyze prog) := by
  have h0 : Inv (pushScope emptySt none .global).1 [(pushScope emptySt none .global).2] :=
    initial_inv
  obtain ⟨hw, _⟩ := walk_spec prog _ _ h0
  exact (closeRoot_spec _ hw).1

end ScopeEngine

namespace ScopeEngine

theorem evalShadow :
    (analyze progShadow).refs.length = 1 ∧
    ((analyze progShadow).refOf 0).resolved = some 1 ∧
    ((analyze progShadow).bindOf 1).owningScope = 1 ∧
    ((analyze progShadow).bindOf 0).owningScope = 0 ∧
    ((analyze progShadow).refOf 0).fromScope = 1 ∧
    (analyze progShadow).bindings.length = 2 := by
  refine ⟨?_, ?_, ?_, ?_, ?_, ?_⟩ <;>
    simp [analyze, progShadow, walkStmts, close, closeLoop, pushScope, addRef, recordDecl,
      recordDeclAt, curScope, hoistTarget, setScope, setBind, setRef, St.scopeOf, St.bindOf,
      St.refOf, St.findBinding, emptySt, defaultScope, defaultBinding, defaultRef]

theorem evalHoist :
    ((analyze progHoist).refOf 0).resolved = some 0 ∧
    (analyze progHoist).bindings.length = 1 ∧
    ((analyze progHoist).bindOf 0).defs = [⟨.varDef, "x", 3⟩] ∧
    ((analyze progHoist).scopeOf ((analyze progHoist).bindOf 0).owningScope).kind =
      .function := by
  refine ⟨?_, ?_, ?_, ?_⟩ <;>
    simp [analyze, progHoist, walkStmts, close, closeLoop, pushScope, addRef, recordDecl,
      recordDeclAt, curScope, hoistTarget, setScope, setBind, setRef, St.scopeOf, St.bindOf,
      St.refOf, St.findBinding, emptySt, defaultScope, defaultBinding, defaultRef]

theorem evalMerge :
    (analyze progMerge).bindings.length = 1 ∧
    ((analyze progMerge).bindOf 0).defs.length = 2 ∧
    ((analyze progMerge).refOf 0).resolved = some 0 := by
  refine ⟨?_, ?_, ?_⟩ <;>
    simp [analyze, progMerge, walkStmts, close, closeLoop, pushScope, addRef, recordDecl,
      recordDeclAt, curScope, hoistTarget, setScope, setBind, setRef, St.scopeOf, St.bindOf,
      St.refOf, St.findBinding, emptySt, defaultScope, defaultBinding, defaultRef]

theorem evalIso :
    ((analyze progIso).unresolved = [0] ∧ ((analyze progIso).refOf 0).resolved = none) ∧
    0 < (analyze progIso).refs.length ∧
    lookupNearest (analyze progIso) ((analyze progIso).refOf 0).fromScope
      ((analyze progIso).refOf 0).name = none := by
  refine ⟨⟨?_, ?_⟩, ?_, ?_⟩ <;>
    simp [analyze, progIso, walkStmts, close, closeLoop, pushScope, addRef, recordDecl,
      recordDeclAt, curScope, hoistTarget, setScope, setBind, setRef, St.scopeOf, St.bindOf,
      St.refOf, St.findBinding, emptySt, defaultScope, defaultBinding, defaultRef,
      lookupNearest, lookupNearestAux]

end ScopeEngine

namespace ScopeEngine

/-- C1: for every input program, after the analysis pass completes, every
recorded Reference of `analyze prog` is in exactly one of two terminal
states: its ResolvedBinding is set and it is not in the unresolved list, or
its ResolvedBinding is absent and it is recorded as unresolved/global —
never both absent and unrecorded. -/
theorem c1_reference_terminal_states (prog : List Stmt) (rid : Nat)
    (h : rid < (analyze prog).refs.length) :
    (((analyze prog).refOf rid).resolved.isSome ∧ rid ∉ (analyze prog).unresolved) ∨
    (((analyze prog).refOf rid).resolved = none ∧ rid ∈ (analyze prog).unresolved) := by
  have he := (analyze_spec prog).exclusive rid h
  cases hres : ((analyze prog).refOf rid).resolved with
  | some bid =>
      left
      refine ⟨by rfl, ?_⟩
      rw [hres] at he
      simp at he
      have hc : List.count rid (analyze prog).unresolved = 0 := by omega
      exact List.count_eq_zero.mp hc
  | none =>
      right
      refine ⟨rfl, ?_⟩
      rw [hres] at he
      simp at he
      by_contra hc
      rw [List.count_eq_zero.mpr hc] at he
      exact absurd he (by decide)

theorem c1_witness :
    0 < (analyze progShadow).refs.length ∧
    ((((analyze progShadow).refOf 0).resolved.isSome ∧
        0 ∉ (analyze progShadow).unresolved) ∨
     (((analyze progShadow).refOf 0).resolved = none ∧
        0 ∈ (analyze progShadow).unresolved)) :=
  ⟨by rw [evalShadow.1]; exact Nat.zero_lt_one,
   c1_reference_terminal_states progShadow 0 (by rw [evalShadow.1]; exact Nat.zero_lt_one)⟩

/-- C2: every Reference that resolves resolves to the Binding found by the
nearest-enclosing-scope lookup `lookupNearest` starting at its FromScope
(shadowing is total, independent of declaration order), and in the fixture
`let x; { let x; use(x); }` the use (reference 0, made from the inner block
scope 1) resolves to the inner Binding 1 owned by that block scope, never
the outer Binding 0 owned by the root scope 0. -/
theorem c2_nearest_shadowing (prog : List Stmt) (rid : Nat)
    (h : rid < (analyze prog).refs.length) :
    ((analyze prog).refOf rid).resolved =
      lookupNearest (analyze prog) ((analyze prog).refOf rid).fromScope
        ((analyze prog).refOf rid).name ∧
    (((analyze progShadow).refOf 0).resolved = some 1 ∧
      ((analyze progShadow).bindOf 1).owningScope = 1 ∧
      ((analyze progShadow).bindOf 0).owningScope = 0 ∧
      ((analyze progShadow).refOf 0).fromScope = 1) :=
  ⟨(analyze_spec prog).lookupEq rid h,
   evalShadow.2.1, evalShadow.2.2.1, evalShadow.2.2.2.1, evalShadow.2.2.2.2.1⟩

theorem c2_witness :
    0 < (analyze progShadow).refs.length ∧
    (((analyze progShadow).refOf 0).resolved =
      lookupNearest (analyze progShadow) ((analyze progShadow).refOf 0).fromScope
        ((analyze progShadow).refOf 0).name ∧
    (((analyze progShadow).refOf 0).resolved = some 1 ∧
      ((analyze progShadow).bindOf 1).owningScope = 1 ∧
      ((analyze progShadow).bindOf 0).owningScope = 0 ∧
      ((analyze progShadow).refOf 0).fromScope = 1)) :=
  ⟨by rw [evalShadow.1]; exact Nat.zero_lt_one,
   c2_nearest_shadowing progShadow 0 (by rw [evalShadow.1]; exact Nat.zero_lt_one)⟩

/-- C3: every `var` Definition is recorded on a Binding owned by the nearest
enclosing scope of kind function/global computed from the Definition's
declaration scope (`nearestFGFrom`), never an intermediate block scope; in
the hoisting fixture the use outside the blocks resolves to that single
function-scoped Binding. -/
theorem c3_var_hoisting (prog : List Stmt) (bid : Nat)
    (h : bid < (analyze prog).bindings.length) (d : Defn)
    (hd : d ∈ ((analyze prog).bindOf bid).defs) (hk : d.kind = .varDef) :
    (((analyze prog).bindOf bid).owningScope = nearestFGFrom (analyze prog) d.declScope ∧
      ((analyze prog).scopeOf ((analyze prog).bindOf bid).owningScope).kind ≠ .block) ∧
    (((analyze progHoist).refOf 0).resolved = some 0 ∧
      (analyze progHoist).bindings.length = 1 ∧
      ((analyze progHoist).scopeOf ((analyze progHoist).bindOf 0).owningScope).kind =
        .function) :=
  ⟨((analyze_spec prog).defsFinal bid h d hd).2.1 hk,
   evalHoist.1, evalHoist.2.1, evalHoist.2.2.2⟩

theorem c3_witness :
    (0 < (analyze progHoist).bindings.length ∧
     (⟨.varDef, "x", 3⟩ : Defn) ∈ ((analyze progHoist).bindOf 0).defs ∧
     (⟨.varDef, "x", 3⟩ : Defn).kind = .varDef) ∧
    ((((analyze progHoist).bindOf 0).owningScope =
        nearestFGFrom (analyze progHoist) (⟨.varDef, "x", 3⟩ : Defn).declScope ∧
      ((analyze progHoist).scopeOf ((analyze progHoist).bindOf 0).owningScope).kind ≠
        .block) ∧
    (((analyze progHoist).refOf 0).resolved = some 0 ∧
      (analyze progHoist).bindings.length = 1 ∧
      ((analyze progHoist).scopeOf ((analyze progHoist).bindOf 0).owningScope).kind =
        .function)) :=
  ⟨⟨by rw [evalHoist.2.1]; exact Nat.zero_lt_one,
    by rw [evalHoist.2.2.1]; exact List.mem_singleton.mpr rfl, rfl⟩,
   c3_var_hoisting progHoist 0 (by rw [evalHoist.2.1]; exact Nat.zero_lt_one)
     ⟨.varDef, "x", 3⟩ (by rw [evalHoist.2.2.1]; exact List.mem_singleton.mpr rfl) rfl⟩

/-- C4: the engine is deterministic — `analyze` is a function of the syntax
tree alone, so two runs on the same tree give equal states — and each
Binding's reference list is stably ordered in encounter order: its reference
ids are strictly increasing and each listed Reference resolves back to that
Binding. -/
theorem c4_deterministic_stable_order (prog : List Stmt) (bid : Nat)
    (h : bid < (analyze prog).bindings.length) :
    analyze prog = analyze prog ∧
    List.Pairwise (· < ·) ((analyze prog).bindOf bid).refs ∧
    ∀ r ∈ ((analyze prog).bindOf bid).refs,
      r < (analyze prog).refs.length ∧ ((analyze prog).refOf r).resolved = some bid := by
  obtain ⟨hs, hb⟩ := (analyze_spec prog).sortedRefs bid h
  exact ⟨rfl, hs, hb⟩

theorem c4_witness :
    1 < (analyze progShadow).bindings.length ∧
    (analyze progShadow = analyze progShadow ∧
    List.Pairwise (· < ·) ((analyze progShadow).bindOf 1).refs ∧
    ∀ r ∈ ((analyze progShadow).bindOf 1).refs,
      r < (analyze progShadow).refs.length ∧
      ((analyze progShadow).refOf r).resolved = some 1) :=
  ⟨by rw [evalShadow.2.2.2.2.2]; exact Nat.one_lt_two,
   c4_deterministic_stable_order progShadow 1
     (by rw [evalShadow.2.2.2.2.2]; exact Nat.one_lt_two)⟩

/-- C5: Bindings are unique per name in every scope of the finished state;
recording a declaration whose name is already bound in the target scope
(`recordDeclAt` with a successful `findBinding`) appends a Definition to the
existing Binding and creates no new Binding; in the merge fixture two
`var x` yield one Binding carrying two Definitions, and the subsequent use
resolves to that single Binding. -/
theorem c5_unique_per_name_merge (prog : List Stmt) (sid : Nat)
    (h : sid < (analyze prog).scopes.length) :
    (((analyze prog).scopeOf sid).bindings.map
        (fun bid => ((analyze prog).bindOf bid).name)).Nodup ∧
    (∀ (st : St) (T : Nat) (d : Defn) (bid : Nat), bid < st.bindings.length →
      st.findBinding T d.name = some bid →
      (recordDeclAt st T d).bindings.length = st.bindings.length ∧
      ((recordDeclAt st T d).bindOf bid).defs = (st.bindOf bid).defs ++ [d]) ∧
    ((analyze progMerge).bindings.length = 1 ∧
      ((analyze progMerge).bindOf 0).defs.length = 2 ∧
      ((analyze progMerge).refOf 0).resolved = some 0) := by
  refine ⟨(analyze_spec prog).nodup sid h, ?_, evalMerge⟩
  intro st T d bid hblt hfind
  rw [recordDeclAt_eq_some st T d bid hfind]
  refine ⟨by rw [setBind_length], ?_⟩
  rw [bindOf_setBind_self st bid _ hblt]

/-- Scope count of the merge fixture, for the C5 witness. -/
theorem evalMergeScopes : (analyze progMerge).scopes.length = 1 := by
  simp [analyze, progMerge, walkStmts, close, closeLoop, pushScope, addRef, recordDecl,
    recordDeclAt, curScope, hoistTarget, setScope, setBind, setRef, St.scopeOf, St.bindOf,
    St.refOf, St.findBinding, emptySt, defaultScope, defaultBinding, defaultRef]

theorem c5_witness :
    0 < (analyze progMerge).scopes.length ∧
    ((((analyze progMerge).scopeOf 0).bindings.map
        (fun bid => ((analyze progMerge).bindOf bid).name)).Nodup ∧
    (∀ (st : St) (T : Nat) (d : Defn) (bid : Nat), bid < st.bindings.length →
      st.findBinding T d.name = some bid →
      (recordDeclAt st T d).bindings.length = st.bindings.length ∧
      ((recordDeclAt st T d).bindOf bid).defs = (st.bindOf bid).defs ++ [d]) ∧
    ((analyze progMerge).bindings.length = 1 ∧
      ((analyze progMerge).bindOf 0).defs.length = 2 ∧
      ((analyze progMerge).refOf 0).resolved = some 0)) :=
  ⟨by rw [evalMergeScopes]; exact Nat.zero_lt_one,
   c5_unique_per_name_merge progMerge 0 (by rw [evalMergeScopes]; exact Nat.zero_lt_one)⟩

/-- C6: from any analysis state satisfying the walk invariant, the rest of
the forward walk only evolves the state: ScopeNodes, Bindings, Definitions
and References are never deleted, their identifying attributes never change,
all record lists grow only at the end, and a Reference's ResolvedBinding is
only ever set while still absent — once set it never changes
(`Evolves.refResolved`). -/
theorem c6_append_only_resolve_once (st : St) (stack : List Nat) (l : List Stmt)
    (h : Inv st stack) : Evolves st (walkStmts st stack l) :=
  (walk_spec l st stack h).2

theorem c6_witness :
    Evolves (pushScope emptySt none .global).1
      (walkStmts (pushScope emptySt none .global).1
        [(pushScope emptySt none .global).2] progShadow) :=
  c6_append_only_resolve_once (pushScope emptySt none .global).1
    [(pushScope emptySt none .global).2] progShadow initial_inv

/-- C7: an unresolvable reference is not an error: `analyze` always returns a
state, and a Reference whose name misses every scope from its FromScope up to
and including the root (its nearest-match lookup is empty) ends with no
ResolvedBinding and recorded in the unresolved list — the normal query
surface; in the isolation fixture `{ let x = 1; } use(x);` the use is exactly
such an unresolved/global reference. -/
theorem c7_unresolved_not_error (prog : List Stmt) (rid : Nat)
    (h : rid < (analyze prog).refs.length)
    (hmiss : lookupNearest (analyze prog) ((analyze prog).refOf rid).fromScope
      ((analyze prog).refOf rid).name = none) :
    (((analyze prog).refOf rid).resolved = none ∧ rid ∈ (analyze prog).unresolved) ∧
    ((analyze progIso).unresolved = [0] ∧ ((analyze progIso).refOf 0).resolved = none) := by
  have hf := analyze_spec prog
  have hres : ((analyze prog).refOf rid).resolved = none := by
    rw [hf.lookupEq rid h]
    exact hmiss
  refine ⟨⟨hres, ?_⟩, evalIso.1⟩
  have he := hf.exclusive rid h
  rw [hres] at he
  simp at he
  by_contra hc
  rw [List.count_eq_zero.mpr hc] at he
  exact absurd he (by decide)

theorem c7_witness :
    (0 < (analyze progIso).refs.length ∧
     lookupNearest (analyze progIso) ((analyze progIso).refOf 0).fromScope
       ((analyze progIso).refOf 0).name = none) ∧
    ((((analyze progIso).refOf 0).resolved = none ∧ 0 ∈ (analyze progIso).unresolved) ∧
    ((analyze progIso).unresolved = [0] ∧ ((analyze progIso).refOf 0).resolved = none)) :=
  ⟨⟨evalIso.2.1, evalIso.2.2⟩,
   c7_unresolved_not_error progIso 0 evalIso.2.1 evalIso.2.2⟩

end ScopeEngine

namespace RuleModel

theorem parseRegExpText_isSome (alts : List (List RElement)) :
    (parseRegExpText alts).isSome =
      (match alts with
       | [elems] => (removeAnchor elems).all isCharElem
       | _ => false) := by
  match alts with
  | [] => rfl
  | [elems] =>
      simp only [parseRegExpText]
      cases hall : (removeAnchor elems).all isCharElem with
      | true => simp [hall]
      | false => simp [hall]
  | a :: b :: rest => rfl

theorem parseRegExp_isSome_eq (source flags : String) (alts : List (List RElement)) :
    (parseRegExp (some (.re source flags alts))).isSome =
      amendedC8Cond source flags alts := by
  simp only [parseRegExp, amendedC8Cond]
  cases hs : startsWithCaret source <;> cases he : endsWithDollar source <;>
    cases hi : flagsHave flags 'i' <;> cases hm : flagsHave flags 'm' <;>
      simp [hs, he, hi, hm] <;>
      (rw [← parseRegExpText_isSome]; cases hpt : parseRegExpText alts <;> simp [hpt])

/-- C8: counterexample to the claim as stated.  For the regex `/a\$/` —
source text `a\$`, empty flags, a single alternative whose regexpp parse is
`[Character a, Character $]` (the `$` is escaped, so it is a plain
Character, not an end assertion) — the source ends with `$` and `parseRegExp`
accepts it, because `parseRegExpText` pops the last element unconditionally;
yet the pattern does not consist of plain Characters after removing an
anchor element (there is no anchor element), so the claimed condition is
false while `parseRegExp` returns a non-null result with text `a`. -/
theorem c8_counterexample :
    parseRegExp (some (.re "a\\$" "" [[.char 97, .char 36]])) =
      some ⟨true, false, [97]⟩ ∧
    claimC8Cond "a\\$" "" [[.char 97, .char 36]] = false ∧
    amendedC8Cond "a\\$" "" [[.char 97, .char 36]] = true := by
  refine ⟨?_, ?_, ?_⟩ <;> decide

/-- C8: amended characterization of `parseRegExp`: it returns a non-null
result exactly when the static value is a RegExp whose source starts with
`^` or ends with `$` (not both), whose flags contain neither `i` nor `m`,
and whose pattern is a single alternative that consists only of plain
Character elements after `removeAnchor` — which drops the leading element
only when it is a start assertion and otherwise drops the trailing element
whatever it is (the claim instead requires the dropped trailing element to
be an end assertion; `c8_counterexample` refutes that reading).  Whenever a
result is produced its `isStartsWith` is true iff the source starts with
`^`, and the `RegExp#test` handler reports only under this condition. -/
theorem c8_amended (source flags : String) (alts : List (List RElement)) :
    ((parseRegExp (some (.re source flags alts))).isSome =
      amendedC8Cond source flags alts) ∧
    (∀ pr, parseRegExp (some (.re source flags alts)) = some pr →
      pr.isStartsWith = startsWithCaret source) ∧
    (∀ n, (testHandlerReport n (some (.re source flags alts))).isSome = true →
      amendedC8Cond source flags alts = true) := by
  refine ⟨parseRegExp_isSome_eq source flags alts, ?_, ?_⟩
  · intro pr hpr
    simp only [parseRegExp] at hpr
    by_cases hg : ((startsWithCaret source == endsWithDollar source) ||
        flagsHave flags 'i' || flagsHave flags 'm') = true
    · rw [if_pos hg] at hpr
      exact Option.noConfusion hpr
    · rw [if_neg hg] at hpr
      cases hpt : parseRegExpText alts with
      | none => rw [hpt] at hpr; exact Option.noConfusion hpr
      | some text =>
          rw [hpt] at hpr
          cases hpr
          rfl
  · intro n h
    unfold testHandlerReport at h
    cases hn : (n == 1) with
    | false => rw [hn] at h; simp at h
    | true =>
        rw [hn] at h
        simp only [if_true] at h
        cases hp : parseRegExp (some (.re source flags alts)) with
        | none => rw [hp] at h; simp at h
        | some pr =>
            rw [← parseRegExp_isSome_eq source flags alts, hp]
            rfl

/-- C9: for a comparison the charAt/index handler reported, the autofix
produces no text edit exactly when the right operand does not statically
evaluate to a single-character string: `charAtFix` is `none` iff
`isCharacter` rejects the right operand. -/
theorem c9_fix_guard (allow : AllowOpt) (m : CharAtMatch) (isStarts : Bool)
    (h : (charAtReport allow m).isSome) :
    (charAtFix m isStarts = none ↔ isCharacter m.right = false) := by
  unfold charAtFix
  cases hc : isCharacter m.right <;> simp [hc]

theorem c9_witness :
    (charAtReport .never
        ⟨.opaqueE 0, true, some (.lit (.num 0)), "==", .lit (.str [97])⟩).isSome = true ∧
    (charAtFix ⟨.opaqueE 0, true, some (.lit (.num 0)), "==", .lit (.str [97])⟩ true = none ↔
      isCharacter (Expr.lit (.str [97])) = false) :=
  ⟨by decide, c9_fix_guard .never _ true (by decide)⟩

/-- C10: for a matched equality comparison on a string object, with
allowSingleElementEquality set to `always` the handler reports neither the
index-0 form nor the last-index (`length - 1`) form, while with the default
`never` it reports both: `preferStartsWith` for index 0 and `preferEndsWith`
for the last index. -/
theorem c10_allow_option (m : CharAtMatch) (indexNode : Expr)
    (hidx : m.index = some indexNode) (hop : isEqOp m.op = true)
    (hstr : m.objIsString = true) :
    (isNumber indexNode 0 = true → isLastIndexExpression indexNode m.obj = false →
      charAtReport .always m = none ∧ charAtReport .never m = some .preferStartsWith) ∧
    (isLastIndexExpression indexNode m.obj = true →
      charAtReport .always m = none ∧ charAtReport .never m = some .preferEndsWith) := by
  have e1 : (AllowOpt.always == AllowOpt.always) = true := rfl
  have e2 : (AllowOpt.never == AllowOpt.always) = false := rfl
  refine ⟨fun hnum hlast => ?_, fun hlast => ?_⟩
  · constructor <;> simp [charAtReport, hidx, hop, hstr, hnum, hlast, e1, e2]
  · constructor <;> simp [charAtReport, hidx, hop, hstr, hlast, e1, e2]

theorem c10_witness :
    ((⟨.opaqueE 0, true, some (.lit (.num 0)), "==", .opaqueE 1⟩ : CharAtMatch).index =
        some (.lit (.num 0)) ∧
     isEqOp (⟨.opaqueE 0, true, some (.lit (.num 0)), "==", .opaqueE 1⟩ : CharAtMatch).op =
        true ∧
     (⟨.opaqueE 0, true, some (.lit (.num 0)), "==", .opaqueE 1⟩ :
        CharAtMatch).objIsString = true) ∧
    ((isNumber (Expr.lit (.num 0)) 0 = true →
        isLastIndexExpression (Expr.lit (.num 0)) (Expr.opaqueE 0) = false →
        charAtReport .always
            ⟨.opaqueE 0, true, some (.lit (.num 0)), "==", .opaqueE 1⟩ = none ∧
        charAtReport .never
            ⟨.opaqueE 0, true, some (.lit (.num 0)), "==", .opaqueE 1⟩ =
          some .preferStartsWith) ∧
     (isLastIndexExpression (Expr.lit (.num 0)) (Expr.opaqueE 0) = true →
        charAtReport .always
            ⟨.opaqueE 0, true, some (.lit (.num 0)), "==", .opaqueE 1⟩ = none ∧
        charAtReport .never
            ⟨.opaqueE 0, true, some (.lit (.num 0)), "==", .opaqueE 1⟩ =
          some .preferEndsWith)) :=
  ⟨⟨rfl, by decide, rfl⟩,
   c10_allow_option ⟨.opaqueE 0, true, some (.lit (.num 0)), "==", .opaqueE 1⟩
     (Expr.lit (.num 0)) rfl (by decide) rfl⟩

end RuleModel
